import Mathlib

/-!
Verification of the XYZ molecular-file codec (`pymatgen/io/xyz.py`).

The module parses and serializes the XYZ text format, single frame (`XYZ`)
and multi frame (`MXYZ`).  The embedding works over `List Char` (the
character content of a Python `str`), with coordinates as `ℚ` (the exact
rational value of the numeric tokens; Python's binary 64-bit floats are
idealized by their exact rational values).  Python exceptions are modelled
by `Except PyExc`.  The regular-expression fragments used by the source are
embedded by deterministic maximal-munch matchers, which coincide with
Python's leftmost greedy backtracking semantics for these particular
patterns because every pair of adjacent character classes in them is
disjoint (word vs whitespace, whitespace vs the numeric class, digits vs
horizontal whitespace), so no backtracking alternative can ever succeed
where the greedy choice failed.  The character model is ASCII, matching the
file format's ASCII orientation.
-/

attribute [local semireducible] Rat.add Rat.mul Rat.inv Rat.sub

/-- Decidable equality of `Except` results, so that concrete runs of the
codec can be checked by `decide`. -/
instance exceptDecEq {ε α : Type} [DecidableEq ε] [DecidableEq α] : DecidableEq (Except ε α) :=
  fun a b =>
    match a, b with
    | .ok x, .ok y =>
      if h : x = y then isTrue (by rw [h]) else isFalse (by intro hc; cases hc; exact h rfl)
    | .error e, .error f =>
      if h : e = f then isTrue (by rw [h]) else isFalse (by intro hc; cases hc; exact h rfl)
    | .ok _, .error _ => isFalse (by intro hc; cases hc)
    | .error _, .ok _ => isFalse (by intro hc; cases hc)

/-! ### Character classes of the regular expressions in the source -/

/-- ASCII model of the regex class `\w` (letters, digits, underscore). -/
def isWordChar (c : Char) : Bool :=
  c.isAlpha || c.isDigit || c = '_'

/-- ASCII model of the regex class `\s` (all whitespace, including newline). -/
def isSpaceChar (c : Char) : Bool :=
  c = ' ' || c = '\t' || c = '\n' || c = '\r' || c = '\x0b' || c = '\x0c'

/-- Model of the class `[ \t\r\f\v]` (horizontal whitespace) used by `MXYZ`. -/
def isHWChar (c : Char) : Bool :=
  c = ' ' || c = '\t' || c = '\r' || c = '\x0b' || c = '\x0c'

/-- The numeric-token class `[0-9\-\.e]` of the coordinate patterns. -/
def isNumChar (c : Char) : Bool :=
  c.isDigit || c = '-' || c = '.' || c = 'e'

/-! ### Python `str.split("\n")` -/

/-- Model of Python `contents.split("\n")`: split at every newline, keeping
empty pieces; the result is always nonempty. -/
def splitNL : List Char → List (List Char)
  | [] => [[]]
  | c :: cs =>
    if c = '\n' then [] :: splitNL cs
    else
      match splitNL cs with
      | [] => [[c]]
      | l :: ls => (c :: l) :: ls

/-- Model of Python `"\n".join(parts)`. -/
def joinNL : List (List Char) → List Char
  | [] => []
  | [l] => l
  | l :: ls => l ++ '\n' :: joinNL ls

/-! ### Decimal rendering (Python `str` of a nonnegative integer) -/

/-- Little-endian digit characters of `n`; `fuel ≥ n` suffices. -/
def natRenderAux : ℕ → ℕ → List Char
  | 0, _ => []
  | fuel + 1, n => if n = 0 then [] else Nat.digitChar (n % 10) :: natRenderAux fuel (n / 10)

/-- Decimal rendering of a natural number, as Python `str` produces it. -/
def natRender (n : ℕ) : List Char :=
  if n = 0 then ['0'] else (natRenderAux n n).reverse

/-- Numeric value of a list of decimal digit characters (left-to-right). -/
def digitsVal (ds : List Char) : ℕ :=
  ds.foldl (fun a c => 10 * a + (c.toNat - 48)) 0

/-! ### Python `int()` -/

/-- Strip leading and trailing whitespace (Python `int()` ignores it). -/
def stripWS (cs : List Char) : List Char :=
  ((cs.dropWhile isSpaceChar).reverse.dropWhile isSpaceChar).reverse

/-- A nonempty all-digit string, as `int()` requires after sign and strip. -/
def parseDigitsNat (ds : List Char) : Option ℕ :=
  if ds.isEmpty then none
  else if ds.all Char.isDigit then some (digitsVal ds) else none

/-- Model of Python `int(s)` (ASCII; underscore digit grouping not modelled):
optional surrounding whitespace, optional sign, one or more decimal digits.
`none` models the `ValueError` that `int()` raises otherwise. -/
def pyParseIntAux : List Char → Option ℤ
  | [] => none
  | c :: ds =>
    if c = '+' then (parseDigitsNat ds).map Int.ofNat
    else if c = '-' then (parseDigitsNat ds).map (fun n => -(n : ℤ))
    else (parseDigitsNat (c :: ds)).map Int.ofNat

/-- Model of Python `int(s)` (ASCII; underscore digit grouping not modelled):
optional surrounding whitespace, optional sign, one or more decimal digits.
`none` models the `ValueError` that `int()` raises otherwise. -/
def pyParseIntChars (cs : List Char) : Option ℤ :=
  pyParseIntAux (stripWS cs)

/-! ### Python `float()` (exact rational value) -/

/-- Optional sign at the front of a `float()` literal. -/
def floatSign (cs : List Char) : ℚ × List Char :=
  match cs with
  | [] => (1, [])
  | c :: r => if c = '-' then (-1, r) else if c = '+' then (1, r) else (1, c :: r)

/-- Optional sign of a `float()` exponent. -/
def floatSignInt (cs : List Char) : ℤ × List Char :=
  match cs with
  | [] => (1, [])
  | c :: r => if c = '-' then (-1, r) else if c = '+' then (1, r) else (1, c :: r)

/-- Exponent part after `e`/`E`: optional sign and one or more digits,
with nothing allowed after them. -/
def pyFloatExp (sgn mant : ℚ) (t : List Char) : Option ℚ :=
  let se := floatSignInt t
  let ds := se.2.takeWhile Char.isDigit
  let rest := se.2.dropWhile Char.isDigit
  if ds.isEmpty then none
  else if rest.isEmpty then some (sgn * mant * (10 : ℚ) ^ (se.1 * (digitsVal ds : ℤ)))
  else none

/-- After integer digits `ip` and fraction digits `fp` have been read:
at least one mantissa digit is required, then optionally an exponent. -/
def pyFloatTail (sgn : ℚ) (ip fp : List Char) (t : List Char) : Option ℚ :=
  if ip.isEmpty && fp.isEmpty then none
  else
    let mant : ℚ := (digitsVal ip : ℚ) + (digitsVal fp : ℚ) / (10 : ℚ) ^ fp.length
    match t with
    | [] => some (sgn * mant)
    | 'e' :: r => pyFloatExp sgn mant r
    | 'E' :: r => pyFloatExp sgn mant r
    | _ => none

/-- Optional fraction part after the integer digits. -/
def pyFloatAfterInt (sgn : ℚ) (ip : List Char) (t : List Char) : Option ℚ :=
  match t with
  | '.' :: r => pyFloatTail sgn ip (r.takeWhile Char.isDigit) (r.dropWhile Char.isDigit)
  | _ => pyFloatTail sgn ip [] t

/-- Model of Python `float(s)` restricted to finite decimal literals (the
only form the coordinate token class `[0-9\-\.e]` can produce): optional
sign, digits with optional fraction, optional exponent.  `none` models the
`ValueError` raised on anything else (for example the token `"e"`). -/
def pyFloatChars (cs : List Char) : Option ℚ :=
  let sc := floatSign cs
  pyFloatAfterInt sc.1 (sc.2.takeWhile Char.isDigit) (sc.2.dropWhile Char.isDigit)

/-! ### Python fixed-point float formatting `"{:.pf}"` -/

/-- Round to the nearest integer, ties to even — the rounding CPython's
fixed-point float formatting applies to the (exact) value. -/
def rnde (q : ℚ) : ℤ :=
  if q - (⌊q⌋ : ℚ) < 1 / 2 then ⌊q⌋
  else if 1 / 2 < q - (⌊q⌋ : ℚ) then ⌊q⌋ + 1
  else if ⌊q⌋ % 2 = 0 then ⌊q⌋ else ⌊q⌋ + 1

/-- Model of Python `"{:.pf}".format(q)`: sign for negatives, integer part,
and (for `p > 0`) a point followed by exactly `p` zero-padded fraction
digits; no exponent ever. -/
def fmtFloat (q : ℚ) (p : ℕ) : List Char :=
  let n := (rnde (|q| * (10 : ℚ) ^ p)).toNat
  let sign : List Char := if q < 0 then ['-'] else []
  if p = 0 then sign ++ natRender n
  else
    sign ++ natRender (n / 10 ^ p) ++
      '.' :: (List.replicate (p - (natRender (n % 10 ^ p)).length) '0' ++ natRender (n % 10 ^ p))

/-! ### Data model

A `Site` is one atom record of the collaborator structure type
(`pymatgen.core.structure.Molecule` is outside this module): an element or
species label together with three Cartesian coordinates.  The molecule
value itself is its ordered list of sites; its composition formula string
is produced by the collaborator and therefore enters the serializer as a
parameter. -/

structure Site where
  specie : List Char
  x : ℚ
  y : ℚ
  z : ℚ
deriving DecidableEq

/-- Python exceptions the module can raise. -/
inductive PyExc where
  /-- `ValueError` raised by `int()` on the given text. -/
  | valueErrorInt : List Char → PyExc
  /-- `ValueError` raised by `float()` on the given token. -/
  | valueErrorFloat : List Char → PyExc
  /-- `IndexError` from an out-of-range sequence index. -/
  | indexError : PyExc
deriving DecidableEq

/-- The `XYZ` object: a molecule plus the serialization precision. -/
structure XYZ where
  mol : List Site
  precision : ℕ
deriving DecidableEq

/-- The `MXYZ` object: a frame sequence plus the serialization precision. -/
structure MXYZ where
  mols : List (List Site)
  precision : ℕ
deriving DecidableEq

/-- `XYZ.__init__` with the default `coord_precision=6`. -/
def XYZ.init (mol : List Site) : XYZ := ⟨mol, 6⟩

/-- `XYZ.__init__` with an explicitly supplied `coord_precision`. -/
def XYZ.initWith (mol : List Site) (coord_precision : ℕ) : XYZ := ⟨mol, coord_precision⟩

/-- `MXYZ.__init__` with the default `coord_precision=6`. -/
def MXYZ.init (mols : List (List Site)) : MXYZ := ⟨mols, 6⟩

/-- `MXYZ.__init__` with an explicitly supplied `coord_precision`. -/
def MXYZ.initWith (mols : List (List Site)) (coord_precision : ℕ) : MXYZ := ⟨mols, coord_precision⟩

/-! ### The per-line coordinate pattern
`(\w+)\s+([0-9\-\.e]+)\s+([0-9\-\.e]+)\s+([0-9\-\.e]+)` with `re.search`. -/

/-- Attempt the coordinate pattern at the start of `cs`, returning the four
captured groups.  Maximal munch is exact here: `\w`/`\s` and `\s`/the
numeric class are disjoint, so Python's backtracking has no alternatives. -/
def matchCoordAt (cs : List Char) : Option (List Char × List Char × List Char × List Char) :=
  let w := cs.takeWhile isWordChar
  let r1 := cs.dropWhile isWordChar
  if w.isEmpty then none else
  let s1 := r1.takeWhile isSpaceChar
  let r2 := r1.dropWhile isSpaceChar
  if s1.isEmpty then none else
  let a := r2.takeWhile isNumChar
  let r3 := r2.dropWhile isNumChar
  if a.isEmpty then none else
  let s2 := r3.takeWhile isSpaceChar
  let r4 := r3.dropWhile isSpaceChar
  if s2.isEmpty then none else
  let b := r4.takeWhile isNumChar
  let r5 := r4.dropWhile isNumChar
  if b.isEmpty then none else
  let s3 := r5.takeWhile isSpaceChar
  let r6 := r5.dropWhile isSpaceChar
  if s3.isEmpty then none else
  let c := r6.takeWhile isNumChar
  if c.isEmpty then none else
  some (w, a, b, c)

/-- Python `coord_patt.search(line)`: try the pattern at every position,
left to right, returning the leftmost match's groups. -/
def searchCoordChars : List Char → Option (List Char × List Char × List Char × List Char)
  | [] => none
  | c :: cs =>
    match matchCoordAt (c :: cs) with
    | some g => some g
    | none => searchCoordChars cs

/-! ### `XYZ.from_string` -/

/-- One iteration of the loop `for i in range(2, 2 + num_sites)` of
`XYZ.from_string`, given the outcome `res` for the later iterations: search
the coordinate pattern in the line, skip the line if there is no match,
otherwise convert the three captured numeric tokens with `float` (raising
`ValueError` on a token it cannot parse) and prepend the site. -/
def scanStep (res : Except PyExc (List Site)) (line : List Char) : Except PyExc (List Site) :=
  match searchCoordChars line with
  | none => res
  | some (w, a, b, c) =>
    match pyFloatChars a with
    | none => .error (.valueErrorFloat a)
    | some x =>
      match pyFloatChars b with
      | none => .error (.valueErrorFloat b)
      | some y =>
        match pyFloatChars c with
        | none => .error (.valueErrorFloat c)
        | some z => res.map (fun rest => ⟨w, x, y, z⟩ :: rest)

/-- The iteration over the index range: fetch `lines[i]` (raising
`IndexError` past the end) and process the line with `scanStep`. -/
def scanLines (lines : List (List Char)) : List ℕ → Except PyExc (List Site)
  | [] => .ok []
  | i :: is =>
    match lines[i]? with
    | none => .error .indexError
    | some line => scanStep (scanLines lines is) line

/-- `XYZ.from_string` after the `split("\n")`: `num_sites = int(lines[0])`
(its `ValueError` when the first line is not an integer), then the
coordinate scan over `lines[2 : 2 + num_sites]`, then `XYZ(Molecule(...))`
with the default precision 6. -/
def xyzFromLines (lines : List (List Char)) : Except PyExc XYZ :=
  match lines with
  | [] => .error .indexError
  | l0 :: _ =>
    match pyParseIntChars l0 with
    | none => .error (.valueErrorInt l0)
    | some n => (scanLines lines (List.range' 2 n.toNat)).map (fun mol => ⟨mol, 6⟩)

/-- `XYZ.from_string` on character content. -/
def xyzFromChars (cs : List Char) : Except PyExc XYZ :=
  xyzFromLines (splitNL cs)

/-- `XYZ.from_string(contents)`. -/
def XYZ.from_string (contents : String) : Except PyExc XYZ :=
  xyzFromChars contents.data

/-! ### `XYZ.__str__` -/

/-- One output line of `XYZ.__str__` for one site:
`"{} {:.pf} {:.pf} {:.pf}".format(site.specie, site.x, site.y, site.z)`. -/
def lineOf (p : ℕ) (s : Site) : List Char :=
  s.specie ++ ' ' :: (fmtFloat s.x p ++ ' ' :: (fmtFloat s.y p ++ ' ' :: fmtFloat s.z p))

/-- `XYZ.__str__` on character content: `str(len(mol))`, the collaborator's
composition formula line, one line per site, joined by newlines.  The
formula string is `self._mol.composition.formula`, computed by the
collaborator structure type, hence a parameter here. -/
def xyzStrChars (mol : List Site) (formula : List Char) (p : ℕ) : List Char :=
  joinNL (natRender mol.length :: formula :: mol.map (lineOf p))

/-- `str(XYZ(mol, p))`, with the collaborator-supplied formula string. -/
def XYZ.str (x : XYZ) (formula : List Char) : String :=
  String.mk (xyzStrChars x.mol formula x.precision)

/-! ### The `MXYZ` frame pattern

`natoms_line + comment_line + coord_lines` where
`natoms_line = [ \t\r\f\v]*\d+[ \t\r\f\v]*\n`, `comment_line = [^\n]*\n`,
`coord_lines = (\s*\w+\s+[0-9\-\.e]+\s+[0-9\-\.e]+\s+[0-9\-\.e]+\s*\n)+`,
scanned over the whole document with `finditer`.  Each sub-matcher below
returns the consumed text together with the remaining input.  As for the
per-line pattern, greedy maximal munch is exact for every quantifier: each
run's class is disjoint from the class of the following required character,
except for the trailing `\s*\n` of a coordinate line, where backtracking
makes the match end at the last newline of the trailing whitespace run,
which `splitLastNL` computes directly. -/

/-- Split a character run at its last newline: `t = before ++ '\n' :: after`
with no newline in `after`; `none` when `t` has no newline. -/
def splitLastNL : List Char → Option (List Char × List Char)
  | [] => none
  | c :: cs =>
    match splitLastNL cs with
    | some (a, b) => some (c :: a, b)
    | none => if c = '\n' then some ([], cs) else none

/-- Match `[ \t\r\f\v]*\d+[ \t\r\f\v]*\n` at the start of the input. -/
def matchNAtomsLine (cs : List Char) : Option (List Char × List Char) :=
  let h1 := cs.takeWhile isHWChar
  let r1 := cs.dropWhile isHWChar
  let d := r1.takeWhile Char.isDigit
  let r2 := r1.dropWhile Char.isDigit
  if d.isEmpty then none else
  let h2 := r2.takeWhile isHWChar
  let r3 := r2.dropWhile isHWChar
  match r3 with
  | [] => none
  | c :: r4 => if c = '\n' then some (h1 ++ d ++ h2 ++ ['\n'], r4) else none

/-- Match `[^\n]*\n` at the start of the input. -/
def matchCommentLine (cs : List Char) : Option (List Char × List Char) :=
  let t := cs.takeWhile (fun c => !(c = '\n'))
  let r := cs.dropWhile (fun c => !(c = '\n'))
  match r with
  | [] => none
  | c :: r1 => if c = '\n' then some (t ++ ['\n'], r1) else none

/-- Match one repetition `\s*\w+\s+[0-9\-\.e]+\s+[0-9\-\.e]+\s+[0-9\-\.e]+\s*\n`
of the `coord_lines` group at the start of the input. -/
def matchCoordUnit (cs : List Char) : Option (List Char × List Char) :=
  let s0 := cs.takeWhile isSpaceChar
  let r0 := cs.dropWhile isSpaceChar
  let w := r0.takeWhile isWordChar
  let r1 := r0.dropWhile isWordChar
  if w.isEmpty then none else
  let s1 := r1.takeWhile isSpaceChar
  let r2 := r1.dropWhile isSpaceChar
  if s1.isEmpty then none else
  let a := r2.takeWhile isNumChar
  let r3 := r2.dropWhile isNumChar
  if a.isEmpty then none else
  let s2 := r3.takeWhile isSpaceChar
  let r4 := r3.dropWhile isSpaceChar
  if s2.isEmpty then none else
  let b := r4.takeWhile isNumChar
  let r5 := r4.dropWhile isNumChar
  if b.isEmpty then none else
  let s3 := r5.takeWhile isSpaceChar
  let r6 := r5.dropWhile isSpaceChar
  if s3.isEmpty then none else
  let c := r6.takeWhile isNumChar
  let r7 := r6.dropWhile isNumChar
  if c.isEmpty then none else
  let t := r7.takeWhile isSpaceChar
  let r8 := r7.dropWhile isSpaceChar
  match splitLastNL t with
  | none => none
  | some (u, v) =>
    some (s0 ++ w ++ s1 ++ a ++ s2 ++ b ++ s3 ++ c ++ u ++ ['\n'], v ++ r8)

/-- Greedy `(...)*` over `matchCoordUnit`; since nothing follows the group
in the frame pattern, the regex engine stops at the first failing
repetition and never revisits earlier ones.  Any `fuel ≥ length` is enough
because each repetition consumes at least one character. -/
def unitsStar : ℕ → List Char → List Char × List Char
  | 0, cs => ([], cs)
  | fuel + 1, cs =>
    match matchCoordUnit cs with
    | none => ([], cs)
    | some (t, r) =>
      let p := unitsStar fuel r
      (t ++ p.1, p.2)

/-- Greedy `(...)+` over `matchCoordUnit` (the `coord_lines` group). -/
def matchCoordLines (cs : List Char) : Option (List Char × List Char) :=
  match matchCoordUnit cs with
  | none => none
  | some (t, r) =>
    let p := unitsStar r.length r
    some (t ++ p.1, p.2)

/-- Attempt the whole frame pattern at the start of the input. -/
def frameMatchAt (cs : List Char) : Option (List Char × List Char) :=
  match matchNAtomsLine cs with
  | none => none
  | some (t1, r1) =>
    match matchCommentLine r1 with
    | none => none
    | some (t2, r2) =>
      match matchCoordLines r2 with
      | none => none
      | some (t3, r3) => some (t1 ++ t2 ++ t3, r3)

/-- `pat.finditer(contents)`: attempt the frame pattern at each position,
left to right; on a match, emit its text and resume at the match end.
Any `fuel > length` is enough. -/
def finditerAux : ℕ → List Char → List (List Char)
  | 0, _ => []
  | fuel + 1, cs =>
    match frameMatchAt cs with
    | some (t, r) => t :: finditerAux fuel r
    | none =>
      match cs with
      | [] => []
      | _ :: cs' => finditerAux fuel cs'

/-- The frame texts found by `pat.finditer(contents)`, in document order. -/
def finditerFrames (cs : List Char) : List (List Char) :=
  finditerAux (cs.length + 1) cs

/-! ### `MXYZ.from_string` -/

/-- The loop `for xyz_match in pat.finditer(contents)` of
`MXYZ.from_string`: each matched frame text goes through
`XYZ.from_string(...).molecule`, any exception propagating. -/
def molsOfTexts : List (List Char) → Except PyExc (List (List Site))
  | [] => .ok []
  | t :: ts =>
    match xyzFromChars t with
    | .error e => .error e
    | .ok x => (molsOfTexts ts).map (fun rest => x.mol :: rest)

/-- `MXYZ.from_string` after the trailing-newline normalization: scan the
document for frames, parse each, and build `MXYZ(mols)` with the default
precision 6. -/
def mxyzCore (cs : List Char) : Except PyExc MXYZ :=
  (molsOfTexts (finditerFrames cs)).map (fun ms => ⟨ms, 6⟩)

/-- `MXYZ.from_string(contents)`: `contents[-1]` raises `IndexError` on the
empty string; a newline is appended when the last character is not one;
then the document is scanned. -/
def MXYZ.from_string (contents : String) : Except PyExc MXYZ :=
  match contents.data.getLast? with
  | none => .error .indexError
  | some c =>
    if c = '\n' then mxyzCore contents.data
    else mxyzCore (contents.data ++ ['\n'])

/-! ### `MXYZ.__str__` -/

/-- Modelled from the spec: `MXYZ.__str__` is
`"\n".join([str(mol) for mol in self._mols])`, and the per-frame
serialization `str(mol)` (`Molecule.__str__`, `pymatgen.core.structure`)
is not part of this module's source; section 4.2 of the specification
states that each frame is serialized by the single-frame serializer at the
document's shared precision and the frame texts are joined with a single
newline.  Each frame carries the collaborator-supplied formula string for
its comment line. -/
def mxyzStrChars (frames : List (List Site × List Char)) (p : ℕ) : List Char :=
  joinNL (frames.map (fun f => xyzStrChars f.1 f.2 p))

/-- `str(MXYZ(mols, p))`, with collaborator-supplied formula strings. -/
def MXYZ.str (frames : List (List Site × List Char)) (p : ℕ) : String :=
  String.mk (mxyzStrChars frames p)

/-! ### Specification-side vocabulary used by the claim statements -/

/-- A label made of regex word characters (`\w+`), nonempty. -/
def isWordToken (w : List Char) : Bool :=
  !w.isEmpty && w.all isWordChar

/-- A label that is a whitespace-free token (the data model's
"short text token"; for example `Fe2+` qualifies but is not a word token). -/
def isLabelToken (w : List Char) : Bool :=
  !w.isEmpty && w.all (fun c => !isSpaceChar c)

/-- Every site label of the molecule is a word token. -/
def wfMol (mol : List Site) : Bool :=
  mol.all (fun s => isWordToken s.specie)

/-- Every site label of the molecule is a whitespace-free token. -/
def wfMolTokens (mol : List Site) : Bool :=
  mol.all (fun s => isLabelToken s.specie)

/-- Newline-free text (what the collaborator's one-line formula satisfies). -/
def nlFree (cs : List Char) : Bool :=
  cs.all (fun c => !(c = '\n'))

/-- A formula string as the collaborator produces it, as far as the
multi-frame grammar is concerned: one nonempty line whose first character
is neither whitespace nor in the numeric class (pymatgen formulas start
with an element symbol's uppercase letter). -/
def wfFormulaLine (f : List Char) : Bool :=
  nlFree f &&
    match f with
    | [] => false
    | c :: _ => !isSpaceChar c && !isNumChar c

/-- A frame (molecule plus formula) that the multi-frame grammar can
round-trip: at least one atom, word-token labels, well-formed formula. -/
def wfFrame (f : List Site × List Char) : Bool :=
  !f.1.isEmpty && wfMol f.1 && wfFormulaLine f.2

/-- The signed fixed-point value that formatting at precision `p` followed
by exact reparsing produces: `q` rounded to `p` decimal places. -/
def rndq (q : ℚ) (p : ℕ) : ℚ :=
  (if q < 0 then (-1 : ℚ) else 1) * ((rnde (|q| * (10 : ℚ) ^ p)).toNat : ℚ) / (10 : ℚ) ^ p

/-- The site obtained by formatting a site at precision `p` and parsing it
back: same label, coordinates rounded to `p` decimal places. -/
def parsedOf (p : ℕ) (s : Site) : Site :=
  ⟨s.specie, rndq s.x p, rndq s.y p, rndq s.z p⟩

/-- The lines of a parse input, as `XYZ.from_string` splits them. -/
def xyzLines (s : String) : List (List Char) :=
  splitNL s.data

/-- The window of lines that a declared atom count `n` makes
`XYZ.from_string` scan: lines `2, …, 2 + n - 1`. -/
def xyzWindow (s : String) (n : ℕ) : List (List Char) :=
  ((xyzLines s).drop 2).take n

/-- The atom that one scanned line contributes: `none` when the coordinate
pattern does not match (the line is skipped), the converted site when it
matches and all three tokens convert. -/
def atomOfLine (l : List Char) : Option Site :=
  match searchCoordChars l with
  | none => none
  | some (w, a, b, c) =>
    match pyFloatChars a, pyFloatChars b, pyFloatChars c with
    | some x, some y, some z => some ⟨w, x, y, z⟩
    | _, _, _ => none

/-- A scanned line on which `float()` cannot fail: either the pattern does
not match, or all three captured tokens convert. -/
def lineOk (l : List Char) : Bool :=
  match searchCoordChars l with
  | none => true
  | some (_, a, b, c) =>
    (pyFloatChars a).isSome && (pyFloatChars b).isSome && (pyFloatChars c).isSome

/-- The scan of `XYZ.from_string` reformulated directly on the window's
list of lines (proved equivalent to `scanLines` under the index bounds). -/
def scanWindow : List (List Char) → Except PyExc (List Site)
  | [] => .ok []
  | l :: ls => scanStep (scanWindow ls) l

/-- Fixed-point decimal shape at precision `p`: an optional minus sign
(present exactly when `neg`), a nonempty run of digits, and, when `p > 0`,
a point followed by exactly `p` digits.  No exponent, no other characters. -/
def fixedPointShape (p : ℕ) (neg : Bool) (cs : List Char) : Prop :=
  ∃ ds fs : List Char,
    ds ≠ [] ∧ ds.all Char.isDigit = true ∧ fs.all Char.isDigit = true ∧ fs.length = p ∧
    cs = (if neg then ['-'] else []) ++ ds ++ (if p = 0 then [] else '.' :: fs)

/-- The input text does not begin with a whitespace character (used to
delimit the trailing `\s*\n` of a coordinate line). -/
def headNotWS (cs : List Char) : Prop :=
  ∀ c, cs.head? = some c → isSpaceChar c = false

/-- The newline-terminated atom lines of one formatted frame, as they
appear inside a multi-frame document. -/
def atomLinesBlock (p : ℕ) (mol : List Site) : List Char :=
  (mol.map (fun s => lineOf p s ++ ['\n'])).flatten

/-- One formatted frame followed by the newline that separates it from the
next frame (or that the normalization appends after the last frame). -/
def frameBlock (p : ℕ) (f : List Site × List Char) : List Char :=
  xyzStrChars f.1 f.2 p ++ ['\n']

/-- A concrete three-frame trajectory (one atom per frame) used to
instantiate the multi-frame round trip on explicit data. -/
def c3wFrames : List (List Site × List Char) :=
  [([⟨['H'], 0, 0, 0⟩], "H1".toList), ([⟨['O'], 1, 0, -(1 : ℚ)/4⟩], "O1".toList),
    ([⟨['N'], 2, 3, 4⟩], "N1".toList)]

/-! ## Lemmas: maximal runs -/

theorem takeWhile_run {p : Char → Bool} :
    ∀ (a b : List Char), (∀ c ∈ a, p c = true) →
      (∀ c, b.head? = some c → p c = false) → (a ++ b).takeWhile p = a := by
  intro a
  induction a with
  | nil =>
    intro b _ hb
    cases b with
    | nil => rfl
    | cons c bs => simp [List.takeWhile_cons, hb c rfl]
  | cons x xs ih =>
    intro b ha hb
    have hx : p x = true := ha x (by simp)
    simp only [List.cons_append, List.takeWhile_cons, hx]
    rw [ih b (fun c hc => ha c (by simp [hc])) hb]
    simp

theorem dropWhile_run {p : Char → Bool} :
    ∀ (a b : List Char), (∀ c ∈ a, p c = true) →
      (∀ c, b.head? = some c → p c = false) → (a ++ b).dropWhile p = b := by
  intro a
  induction a with
  | nil =>
    intro b _ hb
    cases b with
    | nil => rfl
    | cons c bs => simp [List.dropWhile_cons, hb c rfl]
  | cons x xs ih =>
    intro b ha hb
    have hx : p x = true := ha x (by simp)
    simp only [List.cons_append, List.dropWhile_cons, hx, if_true]
    exact ih b (fun c hc => ha c (by simp [hc])) hb

theorem head?_none_run {p : Char → Bool} (b : List Char)
    (h : ∀ c ∈ b, p c = false) : ∀ c, b.head? = some c → p c = false := by
  intro c hc
  cases b with
  | nil => cases hc
  | cons x xs => cases hc; exact h _ (by simp)

/-! ## Lemmas: newline split and join -/

theorem splitNL_ne_nil : ∀ cs, splitNL cs ≠ [] := by
  intro cs
  induction cs with
  | nil => simp [splitNL]
  | cons c cs ih =>
    by_cases h : c = '\n'
    · simp [splitNL, h]
    · simp only [splitNL, if_neg h]
      cases hs : splitNL cs with
      | nil => simp
      | cons l ls => simp

theorem nlFree_cons_iff (c : Char) (cs : List Char) :
    nlFree (c :: cs) = true ↔ ¬(c = '\n') ∧ nlFree cs = true := by
  simp [nlFree]

theorem splitNL_nlFree (a : List Char) (h : nlFree a = true) : splitNL a = [a] := by
  induction a with
  | nil => rfl
  | cons c cs ih =>
    rw [nlFree_cons_iff] at h
    simp only [splitNL, if_neg h.1, ih h.2]

theorem splitNL_append (a b : List Char) (h : nlFree a = true) :
    splitNL (a ++ '\n' :: b) = a :: splitNL b := by
  induction a with
  | nil => simp [splitNL]
  | cons c cs ih =>
    rw [nlFree_cons_iff] at h
    simp only [List.cons_append, splitNL, if_neg h.1]
    rw [List.append_eq, ih h.2]

theorem joinNL_cons (l : List Char) (ls : List (List Char)) (h : ls ≠ []) :
    joinNL (l :: ls) = l ++ '\n' :: joinNL ls := by
  cases ls with
  | nil => exact absurd rfl h
  | cons x xs => rfl

theorem splitNL_joinNL_append :
    ∀ (parts : List (List Char)), parts ≠ [] → (∀ l ∈ parts, nlFree l = true) →
      ∀ s, splitNL (joinNL parts ++ '\n' :: s) = parts ++ splitNL s := by
  intro parts
  induction parts with
  | nil => intro h; exact absurd rfl h
  | cons l ls ih =>
    intro _ hall s
    cases ls with
    | nil =>
      simp only [joinNL, List.cons_append, List.nil_append]
      rw [splitNL_append l s (hall l (by simp))]
    | cons m ms =>
      rw [joinNL_cons l (m :: ms) (by simp)]
      rw [List.append_assoc, List.cons_append]
      rw [splitNL_append l _ (hall l (by simp))]
      rw [ih (by simp) (fun x hx => hall x (by simp [hx])) s]
      rfl

theorem splitNL_joinNL (parts : List (List Char)) (hne : parts ≠ [])
    (hall : ∀ l ∈ parts, nlFree l = true) : splitNL (joinNL parts) = parts := by
  induction parts with
  | nil => exact absurd rfl hne
  | cons l ls ih =>
    cases ls with
    | nil => exact splitNL_nlFree l (hall l (by simp))
    | cons m ms =>
      rw [joinNL_cons l (m :: ms) (by simp)]
      rw [splitNL_append l _ (hall l (by simp))]
      rw [ih (by simp) (fun x hx => hall x (by simp [hx]))]

/-! ## Lemmas: character classes -/

theorem isSpaceChar_iff (c : Char) :
    isSpaceChar c = true ↔
      c = ' ' ∨ c = '\t' ∨ c = '\n' ∨ c = '\r' ∨ c = '\x0b' ∨ c = '\x0c' := by
  simp only [isSpaceChar, Bool.or_eq_true, decide_eq_true_eq]
  tauto

theorem word_not_space (c : Char) (h : isWordChar c = true) : isSpaceChar c = false := by
  cases hs : isSpaceChar c
  · rfl
  · rw [isSpaceChar_iff] at hs
    rcases hs with h1 | h1 | h1 | h1 | h1 | h1 <;> subst h1 <;> exact absurd h (by decide)

theorem num_not_space (c : Char) (h : isNumChar c = true) : isSpaceChar c = false := by
  cases hs : isSpaceChar c
  · rfl
  · rw [isSpaceChar_iff] at hs
    rcases hs with h1 | h1 | h1 | h1 | h1 | h1 <;> subst h1 <;> exact absurd h (by decide)

theorem digit_not_space (c : Char) (h : c.isDigit = true) : isSpaceChar c = false := by
  cases hs : isSpaceChar c
  · rfl
  · rw [isSpaceChar_iff] at hs
    rcases hs with h1 | h1 | h1 | h1 | h1 | h1 <;> subst h1 <;> exact absurd h (by decide)

theorem digit_isWordChar (c : Char) (h : c.isDigit = true) : isWordChar c = true := by
  simp [isWordChar, h]

theorem digit_isNumChar (c : Char) (h : c.isDigit = true) : isNumChar c = true := by
  simp [isNumChar, h]

theorem word_ne_nl (c : Char) (h : isWordChar c = true) : ¬(c = '\n') := by
  intro h1; subst h1; exact absurd h (by decide)

theorem num_ne_nl (c : Char) (h : isNumChar c = true) : ¬(c = '\n') := by
  intro h1; subst h1; exact absurd h (by decide)

theorem digit_ne_nl (c : Char) (h : c.isDigit = true) : ¬(c = '\n') := by
  intro h1; subst h1; exact absurd h (by decide)

theorem digit_not_hw (c : Char) (h : c.isDigit = true) : isHWChar c = false := by
  cases hs : isHWChar c
  · rfl
  · have : c = ' ' ∨ c = '\t' ∨ c = '\r' ∨ c = '\x0b' ∨ c = '\x0c' := by
      have h2 := hs
      simp only [isHWChar, Bool.or_eq_true, decide_eq_true_eq] at h2
      tauto
    rcases this with h1 | h1 | h1 | h1 | h1 <;> subst h1 <;> exact absurd h (by decide)

theorem digit_ne_minus (c : Char) (h : c.isDigit = true) : ¬(c = '-') := by
  intro h1; subst h1; exact absurd h (by decide)

theorem digit_ne_plus (c : Char) (h : c.isDigit = true) : ¬(c = '+') := by
  intro h1; subst h1; exact absurd h (by decide)

theorem digit_ne_dot (c : Char) (h : c.isDigit = true) : ¬(c = '.') := by
  intro h1; subst h1; exact absurd h (by decide)

/-! ## Lemmas: decimal rendering and reparsing -/

theorem digitChar_isDigit (d : ℕ) (h : d < 10) : (Nat.digitChar d).isDigit = true := by
  interval_cases d <;> decide

theorem digitChar_val (d : ℕ) (h : d < 10) : (Nat.digitChar d).toNat - 48 = d := by
  interval_cases d <;> decide

theorem natRenderAux_all_digit : ∀ f n, ∀ c ∈ natRenderAux f n, c.isDigit = true := by
  intro f
  induction f with
  | zero => intro n c hc; cases hc
  | succ f ih =>
    intro n c hc
    by_cases hn : n = 0
    · rw [hn] at hc; cases hc
    · simp only [natRenderAux, if_neg hn, List.mem_cons] at hc
      rcases hc with hc | hc
      · subst hc; exact digitChar_isDigit _ (Nat.mod_lt _ (by decide))
      · exact ih _ c hc

theorem natRender_all_digit (n : ℕ) : ∀ c ∈ natRender n, c.isDigit = true := by
  intro c hc
  by_cases hn : n = 0
  · subst hn; simp [natRender] at hc; subst hc; decide
  · simp only [natRender, if_neg hn, List.mem_reverse] at hc
    exact natRenderAux_all_digit n n c hc

theorem natRender_ne_nil (n : ℕ) : natRender n ≠ [] := by
  by_cases hn : n = 0
  · subst hn; simp [natRender]
  · simp only [natRender, if_neg hn, ne_eq, List.reverse_eq_nil_iff]
    cases n with
    | zero => exact absurd rfl hn
    | succ m => simp [natRenderAux]

theorem digitsVal_concat (ds : List Char) (d : Char) :
    digitsVal (ds ++ [d]) = 10 * digitsVal ds + (d.toNat - 48) := by
  simp [digitsVal, List.foldl_append]

theorem digitsVal_rev_aux : ∀ f n, n ≤ f → digitsVal ((natRenderAux f n).reverse) = n := by
  intro f
  induction f with
  | zero =>
    intro n hn
    have : n = 0 := Nat.le_zero.mp hn
    subst this; rfl
  | succ f ih =>
    intro n hn
    by_cases h0 : n = 0
    · subst h0; rfl
    · simp only [natRenderAux, if_neg h0, List.reverse_cons]
      rw [digitsVal_concat]
      rw [ih (n / 10) (by
        have h1 : n / 10 < n := Nat.div_lt_self (Nat.pos_of_ne_zero h0) (by decide)
        omega)]
      rw [digitChar_val _ (Nat.mod_lt _ (by decide))]
      omega

theorem digitsVal_natRender (n : ℕ) : digitsVal (natRender n) = n := by
  by_cases hn : n = 0
  · subst hn; decide
  · simp only [natRender, if_neg hn]
    exact digitsVal_rev_aux n n le_rfl

theorem natRenderAux_length_le : ∀ f n p, n < 10 ^ p → (natRenderAux f n).length ≤ p := by
  intro f
  induction f with
  | zero => intro n p _; simp [natRenderAux]
  | succ f ih =>
    intro n p hnp
    by_cases h0 : n = 0
    · subst h0; simp [natRenderAux]
    · simp only [natRenderAux, if_neg h0, List.length_cons]
      cases p with
      | zero =>
        exfalso
        have : n < 1 := by simpa using hnp
        omega
      | succ p =>
        have hdiv : n / 10 < 10 ^ p := by
          rw [Nat.div_lt_iff_lt_mul (by decide : 0 < 10)]
          calc n < 10 ^ (p + 1) := hnp
          _ = 10 ^ p * 10 := by ring
        have := ih (n / 10) p hdiv
        omega

theorem natRender_length_le (n p : ℕ) (hp : 0 < p) (h : n < 10 ^ p) :
    (natRender n).length ≤ p := by
  by_cases hn : n = 0
  · subst hn; simpa [natRender] using hp
  · simp only [natRender, if_neg hn, List.length_reverse]
    exact natRenderAux_length_le n n p h

theorem digitsVal_replicate_zero (ds : List Char) :
    ∀ k, digitsVal (List.replicate k '0' ++ ds) = digitsVal ds := by
  intro k
  induction k with
  | zero => rfl
  | succ k ih =>
    rw [List.replicate_succ, List.cons_append]
    show List.foldl _ (10 * 0 + ('0'.toNat - 48)) _ = _
    have h0 : 10 * 0 + ('0'.toNat - 48) = 0 := by decide
    rw [h0]
    exact ih

theorem stripWS_of_digits (ds : List Char) (h : ∀ c ∈ ds, c.isDigit = true) :
    stripWS ds = ds := by
  unfold stripWS
  have h1 : ds.dropWhile isSpaceChar = ds := by
    rw [show ds = [] ++ ds from rfl]
    exact dropWhile_run [] ds (by intro c hc; cases hc)
      (head?_none_run ds (fun c hc => digit_not_space c (h c hc)))
  rw [show ds.dropWhile isSpaceChar = ds from h1]
  have h2 : ds.reverse.dropWhile isSpaceChar = ds.reverse := by
    rw [show ds.reverse = [] ++ ds.reverse from rfl]
    exact dropWhile_run [] ds.reverse (by intro c hc; cases hc)
      (head?_none_run ds.reverse (fun c hc => digit_not_space c (h c (List.mem_reverse.mp hc))))
  rw [h2, List.reverse_reverse]

theorem pyParseIntChars_natRender (n : ℕ) : pyParseIntChars (natRender n) = some (n : ℤ) := by
  unfold pyParseIntChars
  rw [stripWS_of_digits _ (natRender_all_digit n)]
  obtain ⟨d, ds, hdds⟩ := List.exists_cons_of_ne_nil (natRender_ne_nil n)
  rw [hdds]
  have hd : d.isDigit = true := by
    have := natRender_all_digit n d (by rw [hdds]; simp)
    exact this
  simp only [pyParseIntAux, if_neg (digit_ne_plus d hd), if_neg (digit_ne_minus d hd)]
  have hne : (d :: ds).isEmpty = false := rfl
  have hall : (d :: ds).all Char.isDigit = true := by
    rw [← hdds]
    rw [List.all_eq_true]
    exact natRender_all_digit n
  simp only [parseDigitsNat, hne, hall, if_true, Bool.false_eq_true, if_false]
  rw [← hdds, digitsVal_natRender]
  rfl

/-! ## Lemmas: whole-list runs -/

theorem takeWhile_all {p : Char → Bool} (l : List Char) (h : ∀ c ∈ l, p c = true) :
    l.takeWhile p = l := by
  have := takeWhile_run l [] h (by intro c hc; cases hc)
  simpa using this

theorem dropWhile_all {p : Char → Bool} (l : List Char) (h : ∀ c ∈ l, p c = true) :
    l.dropWhile p = [] := by
  have := dropWhile_run l [] h (by intro c hc; cases hc)
  simpa using this

/-! ## Lemmas: round half to even -/

theorem rnde_nonneg (q : ℚ) (h : 0 ≤ q) : 0 ≤ rnde q := by
  have hf : 0 ≤ ⌊q⌋ := Int.floor_nonneg.mpr h
  unfold rnde
  split
  · exact hf
  · split
    · omega
    · split <;> omega

theorem abs_rnde_sub (q : ℚ) : |(rnde q : ℚ) - q| ≤ 1 / 2 := by
  have hr0 : 0 ≤ q - (⌊q⌋ : ℚ) := by
    have := Int.floor_le q
    linarith
  have hr1 : q - (⌊q⌋ : ℚ) < 1 := by
    have := Int.lt_floor_add_one q
    linarith
  unfold rnde
  split
  · rename_i h1
    rw [abs_sub_comm, abs_of_nonneg hr0]
    linarith
  · rename_i h1
    push_neg at h1
    split
    · rename_i h2
      rw [abs_of_nonneg (by push_cast; linarith)]
      push_cast
      linarith
    · rename_i h2
      push_neg at h2
      have heq : q - (⌊q⌋ : ℚ) = 1 / 2 := le_antisymm h2 h1
      split
      · rw [abs_sub_comm, abs_of_nonneg hr0, heq]
      · rw [abs_of_nonneg (by push_cast; linarith)]
        push_cast
        linarith

/-! ## Lemmas: fixed-point formatting -/

theorem replicate_zero_all_digit (k : ℕ) : ∀ c ∈ List.replicate k '0', c.isDigit = true := by
  intro c hc
  rw [List.eq_of_mem_replicate hc]
  decide

theorem fmtFloat_frac_all_digit (q : ℚ) (p : ℕ) :
    ∀ c ∈ List.replicate (p - (natRender ((rnde (|q| * (10 : ℚ) ^ p)).toNat % 10 ^ p)).length) '0' ++
        natRender ((rnde (|q| * (10 : ℚ) ^ p)).toNat % 10 ^ p), c.isDigit = true := by
  intro c hc
  rcases List.mem_append.mp hc with hc | hc
  · exact replicate_zero_all_digit _ c hc
  · exact natRender_all_digit _ c hc

theorem fmtFloat_frac_length (q : ℚ) (p : ℕ) (hp : 0 < p) :
    (List.replicate (p - (natRender ((rnde (|q| * (10 : ℚ) ^ p)).toNat % 10 ^ p)).length) '0' ++
        natRender ((rnde (|q| * (10 : ℚ) ^ p)).toNat % 10 ^ p)).length = p := by
  rw [List.length_append, List.length_replicate]
  have hlt : (rnde (|q| * (10 : ℚ) ^ p)).toNat % 10 ^ p < 10 ^ p :=
    Nat.mod_lt _ (Nat.pos_pow_of_pos p (by decide))
  have := natRender_length_le _ p hp hlt
  omega

theorem fmtFloat_shape (q : ℚ) (p : ℕ) :
    ∃ ds fs : List Char,
      ds ≠ [] ∧ (∀ c ∈ ds, c.isDigit = true) ∧ (∀ c ∈ fs, c.isDigit = true) ∧ fs.length = p ∧
      fmtFloat q p = (if q < 0 then ['-'] else []) ++ ds ++ (if p = 0 then [] else '.' :: fs) := by
  by_cases hp : p = 0
  · subst hp
    refine ⟨natRender ((rnde (|q| * (10 : ℚ) ^ 0)).toNat), [], ?_, ?_, ?_, ?_, ?_⟩
    · exact natRender_ne_nil _
    · exact natRender_all_digit _
    · intro c hc; cases hc
    · rfl
    · simp [fmtFloat]
  · refine ⟨natRender ((rnde (|q| * (10 : ℚ) ^ p)).toNat / 10 ^ p),
      List.replicate (p - (natRender ((rnde (|q| * (10 : ℚ) ^ p)).toNat % 10 ^ p)).length) '0' ++
        natRender ((rnde (|q| * (10 : ℚ) ^ p)).toNat % 10 ^ p), ?_, ?_, ?_, ?_, ?_⟩
    · exact natRender_ne_nil _
    · exact natRender_all_digit _
    · exact fmtFloat_frac_all_digit q p
    · exact fmtFloat_frac_length q p (Nat.pos_of_ne_zero hp)
    · simp only [fmtFloat, if_neg hp]

theorem fmtFloat_all_num (q : ℚ) (p : ℕ) : ∀ c ∈ fmtFloat q p, isNumChar c = true := by
  obtain ⟨ds, fs, _, hds, hfs, _, heq⟩ := fmtFloat_shape q p
  intro c hc
  rw [heq] at hc
  rcases List.mem_append.mp hc with hc | hc
  · rcases List.mem_append.mp hc with hc | hc
    · split at hc
      · rw [List.mem_singleton] at hc; subst hc; decide
      · cases hc
    · exact digit_isNumChar c (hds c hc)
  · split at hc
    · cases hc
    · rcases List.mem_cons.mp hc with hc | hc
      · subst hc; decide
      · exact digit_isNumChar c (hfs c hc)

theorem fmtFloat_ne_nil (q : ℚ) (p : ℕ) : fmtFloat q p ≠ [] := by
  obtain ⟨ds, fs, hne, _, _, _, heq⟩ := fmtFloat_shape q p
  rw [heq]
  intro h
  rcases List.append_eq_nil.mp h with ⟨h1, h2⟩
  rcases List.append_eq_nil.mp h1 with ⟨_, h3⟩
  exact hne h3

theorem getLast?_append_right (a b : List Char) (h : b ≠ []) :
    (a ++ b).getLast? = b.getLast? := by
  rw [List.getLast?_append]
  cases hg : b.getLast? with
  | none => exact absurd (List.getLast?_eq_none_iff.mp hg) h
  | some x => rfl

theorem fmtFloat_getLast_digit (q : ℚ) (p : ℕ) :
    ∃ c, (fmtFloat q p).getLast? = some c ∧ c.isDigit = true := by
  obtain ⟨ds, fs, hne, hds, hfs, hlen, heq⟩ := fmtFloat_shape q p
  rw [heq]
  by_cases hp : p = 0
  · subst hp
    rw [show (if (0 : ℕ) = 0 then ([] : List Char) else '.' :: fs) = [] from rfl, List.append_nil]
    obtain ⟨d, hd⟩ := Option.isSome_iff_exists.mp (List.getLast?_isSome.mpr hne)
    refine ⟨d, ?_, hds d (List.mem_of_mem_getLast? (by rw [hd]; rfl))⟩
    rw [getLast?_append_right _ ds hne, hd]
  · have hfne : fs ≠ [] := by
      intro h; rw [h] at hlen; exact hp hlen.symm
    obtain ⟨f, hf⟩ := Option.isSome_iff_exists.mp (List.getLast?_isSome.mpr hfne)
    refine ⟨f, ?_, hfs f (List.mem_of_mem_getLast? (by rw [hf]; rfl))⟩
    rw [if_neg hp]
    rw [getLast?_append_right _ ('.' :: fs) (by simp)]
    rw [show ('.' :: fs) = ['.'] ++ fs from rfl, getLast?_append_right _ fs hfne]
    exact hf

/-! ## Lemmas: reparsing formatted fixed-point numbers -/

theorem isEmpty_false_of_ne_nil {l : List Char} (h : l ≠ []) : l.isEmpty = false := by
  cases l with
  | nil => exact absurd rfl h
  | cons x xs => rfl

theorem div_mod_cast_frac (n p : ℕ) :
    ((n / 10 ^ p : ℕ) : ℚ) + ((n % 10 ^ p : ℕ) : ℚ) / (10 : ℚ) ^ p = (n : ℚ) / (10 : ℚ) ^ p := by
  have h10 : ((10 : ℚ) ^ p) ≠ 0 := by positivity
  have hdm : 10 ^ p * (n / 10 ^ p) + n % 10 ^ p = n := Nat.div_add_mod n (10 ^ p)
  field_simp
  calc ((n / 10 ^ p : ℕ) : ℚ) * (10 : ℚ) ^ p + ((n % 10 ^ p : ℕ) : ℚ)
      = (((10 ^ p * (n / 10 ^ p) + n % 10 ^ p : ℕ)) : ℚ) := by push_cast; ring
  _ = (n : ℚ) := by rw [hdm]

theorem pyFloatTail_mag_p0 (sgn : ℚ) (n : ℕ) :
    pyFloatTail sgn (natRender n) [] [] = some (sgn * (n : ℚ)) := by
  unfold pyFloatTail
  rw [isEmpty_false_of_ne_nil (natRender_ne_nil n)]
  simp only [Bool.false_and, Bool.false_eq_true, if_false]
  rw [digitsVal_natRender]
  have h0 : digitsVal [] = 0 := rfl
  rw [h0]
  norm_num

theorem pyFloatChars_fmtFloat (q : ℚ) (p : ℕ) :
    pyFloatChars (fmtFloat q p) = some (rndq q p) := by
  by_cases hp : p = 0
  · subst hp
    have hfmt : fmtFloat q 0 =
        (if q < 0 then ['-'] else []) ++ natRender ((rnde (|q| * (10 : ℚ) ^ 0)).toNat) := rfl
    by_cases hq : q < 0
    · rw [hfmt, if_pos hq]
      unfold pyFloatChars
      have hsign : floatSign ('-' :: natRender ((rnde (|q| * (10 : ℚ) ^ 0)).toNat)) =
          (-1, natRender ((rnde (|q| * (10 : ℚ) ^ 0)).toNat)) := by
        simp [floatSign]
      rw [show ['-'] ++ natRender ((rnde (|q| * (10 : ℚ) ^ 0)).toNat) =
        '-' :: natRender ((rnde (|q| * (10 : ℚ) ^ 0)).toNat) from rfl]
      rw [hsign]
      simp only
      rw [takeWhile_all _ (natRender_all_digit _), dropWhile_all _ (natRender_all_digit _)]
      unfold pyFloatAfterInt
      rw [pyFloatTail_mag_p0]
      unfold rndq
      rw [if_pos hq]
      norm_num
    · rw [hfmt, if_neg hq, List.nil_append]
      obtain ⟨d, ds, hdds⟩ := List.exists_cons_of_ne_nil
        (natRender_ne_nil ((rnde (|q| * (10 : ℚ) ^ 0)).toNat))
      have hd : d.isDigit = true := natRender_all_digit _ d (by rw [hdds]; simp)
      rw [hdds]
      unfold pyFloatChars
      have hsign : floatSign (d :: ds) = (1, d :: ds) := by
        simp [floatSign, digit_ne_minus d hd, digit_ne_plus d hd]
      rw [hsign]
      simp only
      rw [← hdds]
      rw [takeWhile_all _ (natRender_all_digit _), dropWhile_all _ (natRender_all_digit _)]
      unfold pyFloatAfterInt
      rw [pyFloatTail_mag_p0]
      unfold rndq
      rw [if_neg hq]
      norm_num
  · have hppos : 0 < p := Nat.pos_of_ne_zero hp
    have hfmt : fmtFloat q p =
        (if q < 0 then ['-'] else []) ++
          (natRender ((rnde (|q| * (10 : ℚ) ^ p)).toNat / 10 ^ p) ++
            '.' :: (List.replicate
                (p - (natRender ((rnde (|q| * (10 : ℚ) ^ p)).toNat % 10 ^ p)).length) '0' ++
              natRender ((rnde (|q| * (10 : ℚ) ^ p)).toNat % 10 ^ p))) := by
      simp only [fmtFloat, if_neg hp]
      rw [List.append_assoc]
    have hAdig := natRender_all_digit ((rnde (|q| * (10 : ℚ) ^ p)).toNat / 10 ^ p)
    have hPdig := fmtFloat_frac_all_digit q p
    have hPlen := fmtFloat_frac_length q p hppos
    have hdothead : ∀ c : Char,
        ('.' :: (List.replicate
            (p - (natRender ((rnde (|q| * (10 : ℚ) ^ p)).toNat % 10 ^ p)).length) '0' ++
          natRender ((rnde (|q| * (10 : ℚ) ^ p)).toNat % 10 ^ p))).head? = some c →
        c.isDigit = false := by
      intro c hc
      rw [List.head?_cons, Option.some_inj] at hc
      subst hc
      decide
    have hmag : ∀ sgn : ℚ,
        pyFloatAfterInt sgn
          ((natRender ((rnde (|q| * (10 : ℚ) ^ p)).toNat / 10 ^ p) ++
            '.' :: (List.replicate
                (p - (natRender ((rnde (|q| * (10 : ℚ) ^ p)).toNat % 10 ^ p)).length) '0' ++
              natRender ((rnde (|q| * (10 : ℚ) ^ p)).toNat % 10 ^ p))).takeWhile Char.isDigit)
          ((natRender ((rnde (|q| * (10 : ℚ) ^ p)).toNat / 10 ^ p) ++
            '.' :: (List.replicate
                (p - (natRender ((rnde (|q| * (10 : ℚ) ^ p)).toNat % 10 ^ p)).length) '0' ++
              natRender ((rnde (|q| * (10 : ℚ) ^ p)).toNat % 10 ^ p))).dropWhile Char.isDigit) =
          some (sgn * (((rnde (|q| * (10 : ℚ) ^ p)).toNat : ℚ) / (10 : ℚ) ^ p)) := by
      intro sgn
      rw [takeWhile_run _ _ hAdig hdothead, dropWhile_run _ _ hAdig hdothead]
      unfold pyFloatAfterInt
      simp only
      rw [takeWhile_all _ hPdig, dropWhile_all _ hPdig]
      unfold pyFloatTail
      rw [isEmpty_false_of_ne_nil (natRender_ne_nil _)]
      simp only [Bool.false_and, Bool.false_eq_true, if_false]
      rw [digitsVal_natRender, digitsVal_replicate_zero, digitsVal_natRender, hPlen]
      rw [div_mod_cast_frac]
    by_cases hq : q < 0
    · rw [hfmt, if_pos hq]
      unfold pyFloatChars
      have hsign : ∀ r : List Char, floatSign ('-' :: r) = (-1, r) := by
        intro r; simp [floatSign]
      rw [show ∀ r : List Char, ['-'] ++ r = '-' :: r from fun r => rfl]
      rw [hsign]
      simp only
      rw [hmag]
      unfold rndq
      rw [if_pos hq]
      congr 1
      ring
    · rw [hfmt, if_neg hq, List.nil_append]
      obtain ⟨d, ds, hdds⟩ := List.exists_cons_of_ne_nil
        (natRender_ne_nil ((rnde (|q| * (10 : ℚ) ^ p)).toNat / 10 ^ p))
      have hd : d.isDigit = true := natRender_all_digit _ d (by rw [hdds]; simp)
      unfold pyFloatChars
      have hsign : floatSign
          (natRender ((rnde (|q| * (10 : ℚ) ^ p)).toNat / 10 ^ p) ++
            '.' :: (List.replicate
                (p - (natRender ((rnde (|q| * (10 : ℚ) ^ p)).toNat % 10 ^ p)).length) '0' ++
              natRender ((rnde (|q| * (10 : ℚ) ^ p)).toNat % 10 ^ p))) =
          (1, natRender ((rnde (|q| * (10 : ℚ) ^ p)).toNat / 10 ^ p) ++
            '.' :: (List.replicate
                (p - (natRender ((rnde (|q| * (10 : ℚ) ^ p)).toNat % 10 ^ p)).length) '0' ++
              natRender ((rnde (|q| * (10 : ℚ) ^ p)).toNat % 10 ^ p))) := by
        rw [hdds, List.cons_append]
        simp [floatSign, digit_ne_minus d hd, digit_ne_plus d hd]
      rw [hsign]
      simp only
      rw [hmag]
      unfold rndq
      rw [if_neg hq]
      congr 1
      ring

theorem rndq_close (q : ℚ) (p : ℕ) : |rndq q p - q| ≤ 1 / (10 : ℚ) ^ p := by
  have h10 : (0 : ℚ) < (10 : ℚ) ^ p := by positivity
  have hm0 : 0 ≤ |q| * (10 : ℚ) ^ p := by positivity
  have hrndq : rndq q p =
      (if q < 0 then (-1 : ℚ) else 1) * ((rnde (|q| * (10 : ℚ) ^ p) : ℤ) : ℚ) / (10 : ℚ) ^ p := by
    unfold rndq
    rw [show (((rnde (|q| * (10 : ℚ) ^ p)).toNat : ℚ)) = ((rnde (|q| * (10 : ℚ) ^ p) : ℤ) : ℚ) by
      exact_mod_cast congrArg (fun z : ℤ => (z : ℚ)) (Int.toNat_of_nonneg (rnde_nonneg _ hm0))]
  rw [hrndq]
  set m := |q| * (10 : ℚ) ^ p with hmdef
  set Nq := ((rnde m : ℤ) : ℚ) with hNdef
  have hkey : |Nq - m| ≤ 1 / 2 := abs_rnde_sub m
  have habs1 : |Nq - m| ≤ 1 := le_trans hkey (by norm_num)
  have hfin : |Nq - m| / (10 : ℚ) ^ p ≤ 1 / (10 : ℚ) ^ p := by
    rw [div_le_div_iff h10 h10]
    exact mul_le_mul_of_nonneg_right habs1 (le_of_lt h10)
  by_cases hq : q < 0
  · have hq2 : q = -(m / (10 : ℚ) ^ p) := by
      rw [hmdef, mul_div_assoc, div_self (ne_of_gt h10), mul_one, abs_of_neg hq, neg_neg]
    rw [if_pos hq]
    have heq : (-1 : ℚ) * Nq / (10 : ℚ) ^ p - q = -((Nq - m) / (10 : ℚ) ^ p) := by
      rw [hq2]; ring
    rw [heq, abs_neg, abs_div, abs_of_pos h10]
    exact hfin
  · have hq2 : q = m / (10 : ℚ) ^ p := by
      rw [hmdef, mul_div_assoc, div_self (ne_of_gt h10), mul_one, abs_of_nonneg (not_lt.mp hq)]
    rw [if_neg hq]
    have heq : (1 : ℚ) * Nq / (10 : ℚ) ^ p - q = (Nq - m) / (10 : ℚ) ^ p := by
      rw [hq2]; ring
    rw [heq, abs_div, abs_of_pos h10]
    exact hfin

/-! ## Lemmas: the per-line coordinate pattern on formatted lines -/

theorem head_not_space_fmt (q : ℚ) (p : ℕ) (rest : List Char) :
    ∀ c, (fmtFloat q p ++ rest).head? = some c → isSpaceChar c = false := by
  obtain ⟨d, ds, h⟩ := List.exists_cons_of_ne_nil (fmtFloat_ne_nil q p)
  rw [h]
  intro c hc
  rw [List.cons_append, List.head?_cons, Option.some_inj] at hc
  rw [← hc]
  exact num_not_space d (fmtFloat_all_num q p d (by rw [h]; simp))

theorem head_not_num_space (rest : List Char) :
    ∀ c, (' ' :: rest).head? = some c → isNumChar c = false := by
  intro c hc
  rw [List.head?_cons, Option.some_inj] at hc
  subst hc
  decide

theorem head_not_word_space (rest : List Char) :
    ∀ c, (' ' :: rest).head? = some c → isWordChar c = false := by
  intro c hc
  rw [List.head?_cons, Option.some_inj] at hc
  subst hc
  decide

theorem matchCoordAt_lineOf (p : ℕ) (s : Site) (h : isWordToken s.specie = true) :
    matchCoordAt (lineOf p s) =
      some (s.specie, fmtFloat s.x p, fmtFloat s.y p, fmtFloat s.z p) := by
  have hne : s.specie ≠ [] := by
    intro hnil
    rw [isWordToken, hnil] at h
    exact absurd h (by decide)
  have hword : ∀ c ∈ s.specie, isWordChar c = true := by
    intro c hc
    have := (Bool.and_eq_true _ _).mp h
    exact (List.all_eq_true.mp this.2) c hc
  have hfx := fmtFloat_all_num s.x p
  have hfy := fmtFloat_all_num s.y p
  have hfz := fmtFloat_all_num s.z p
  have hsp : ∀ c ∈ [' '], isSpaceChar c = true := by
    intro c hc; rw [List.mem_singleton] at hc; subst hc; decide
  show matchCoordAt
      (s.specie ++ ' ' :: (fmtFloat s.x p ++ ' ' :: (fmtFloat s.y p ++ ' ' :: fmtFloat s.z p))) = _
  simp only [matchCoordAt]
  rw [takeWhile_run s.specie _ hword (head_not_word_space _),
    dropWhile_run s.specie _ hword (head_not_word_space _)]
  rw [isEmpty_false_of_ne_nil hne]
  simp only [Bool.false_eq_true, if_false]
  rw [show (' ' :: (fmtFloat s.x p ++ ' ' :: (fmtFloat s.y p ++ ' ' :: fmtFloat s.z p))) =
    [' '] ++ (fmtFloat s.x p ++ ' ' :: (fmtFloat s.y p ++ ' ' :: fmtFloat s.z p)) from rfl]
  rw [takeWhile_run [' '] _ hsp (head_not_space_fmt s.x p _),
    dropWhile_run [' '] _ hsp (head_not_space_fmt s.x p _)]
  simp only [List.isEmpty_cons, Bool.false_eq_true, if_false]
  rw [takeWhile_run (fmtFloat s.x p) _ hfx (head_not_num_space _),
    dropWhile_run (fmtFloat s.x p) _ hfx (head_not_num_space _)]
  rw [isEmpty_false_of_ne_nil (fmtFloat_ne_nil s.x p)]
  simp only [Bool.false_eq_true, if_false]
  rw [show (' ' :: (fmtFloat s.y p ++ ' ' :: fmtFloat s.z p)) =
    [' '] ++ (fmtFloat s.y p ++ ' ' :: fmtFloat s.z p) from rfl]
  rw [takeWhile_run [' '] _ hsp (head_not_space_fmt s.y p _),
    dropWhile_run [' '] _ hsp (head_not_space_fmt s.y p _)]
  simp only [List.isEmpty_cons, Bool.false_eq_true, if_false]
  rw [takeWhile_run (fmtFloat s.y p) _ hfy (head_not_num_space _),
    dropWhile_run (fmtFloat s.y p) _ hfy (head_not_num_space _)]
  rw [isEmpty_false_of_ne_nil (fmtFloat_ne_nil s.y p)]
  simp only [Bool.false_eq_true, if_false]
  rw [show (' ' :: fmtFloat s.z p) = [' '] ++ fmtFloat s.z p from rfl]
  have hzrun : ∀ c, (fmtFloat s.z p).head? = some c → isSpaceChar c = false := by
    have := head_not_space_fmt s.z p []
    simpa using this
  rw [takeWhile_run [' '] _ hsp hzrun, dropWhile_run [' '] _ hsp hzrun]
  simp only [List.isEmpty_cons, Bool.false_eq_true, if_false]
  rw [takeWhile_all _ hfz]
  rw [isEmpty_false_of_ne_nil (fmtFloat_ne_nil s.z p)]
  simp only [Bool.false_eq_true, if_false]

theorem searchCoordChars_of_matchAt (l : List Char)
    (g : List Char × List Char × List Char × List Char)
    (h : matchCoordAt l = some g) : searchCoordChars l = some g := by
  cases l with
  | nil => cases h
  | cons c cs =>
    unfold searchCoordChars
    rw [h]

/-! ## Lemmas: the scanning loop -/

theorem scanStep_none (res : Except PyExc (List Site)) (l : List Char)
    (h : searchCoordChars l = none) : scanStep res l = res := by
  simp only [scanStep, h]

theorem scanStep_some (res : Except PyExc (List Site)) (l : List Char)
    (w a b c : List Char) (x y z : ℚ)
    (h : searchCoordChars l = some (w, a, b, c))
    (hx : pyFloatChars a = some x) (hy : pyFloatChars b = some y)
    (hz : pyFloatChars c = some z) :
    scanStep res l = res.map (fun rest => ⟨w, x, y, z⟩ :: rest) := by
  simp only [scanStep, h, hx, hy, hz]

theorem scanLines_cons (lines : List (List Char)) (i : ℕ) (is : List ℕ) (l : List Char)
    (h : lines[i]? = some l) :
    scanLines lines (i :: is) = scanStep (scanLines lines is) l := by
  simp only [scanLines, h]

theorem scanLines_eq_scanWindow :
    ∀ (n k : ℕ) (lines : List (List Char)), k + n ≤ lines.length →
      scanLines lines (List.range' k n) = scanWindow ((lines.drop k).take n) := by
  intro n
  induction n with
  | zero =>
    intro k lines _
    simp [scanLines, scanWindow]
  | succ n ih =>
    intro k lines hlen
    have hk : k < lines.length := by omega
    rw [List.range'_succ]
    rw [List.drop_eq_getElem_cons hk, List.take_succ_cons]
    rw [scanLines_cons lines k _ lines[k] (List.getElem?_eq_getElem hk)]
    show scanStep _ _ = scanStep _ _
    rw [ih (k + 1) lines (by omega)]

theorem scanWindow_format (p : ℕ) (mol : List Site) (h : wfMol mol = true) :
    scanWindow (mol.map (lineOf p)) = .ok (mol.map (parsedOf p)) := by
  induction mol with
  | nil => rfl
  | cons s rest ih =>
    have hs : isWordToken s.specie = true := (List.all_eq_true.mp h) s (by simp)
    have hrest : wfMol rest = true := by
      rw [wfMol, List.all_eq_true]
      intro t ht
      exact (List.all_eq_true.mp h) t (by simp [ht])
    rw [List.map_cons, List.map_cons]
    show scanStep (scanWindow (rest.map (lineOf p))) (lineOf p s) = _
    rw [scanStep_some _ _ s.specie (fmtFloat s.x p) (fmtFloat s.y p) (fmtFloat s.z p)
      (rndq s.x p) (rndq s.y p) (rndq s.z p)
      (searchCoordChars_of_matchAt _ _ (matchCoordAt_lineOf p s hs))
      (pyFloatChars_fmtFloat s.x p) (pyFloatChars_fmtFloat s.y p) (pyFloatChars_fmtFloat s.z p)]
    rw [ih hrest]
    rfl

theorem scanWindow_ok_of_all (w : List (List Char)) (h : w.all lineOk = true) :
    scanWindow w = .ok (w.filterMap atomOfLine) := by
  induction w with
  | nil => rfl
  | cons l ls ih =>
    have hl : lineOk l = true := (List.all_eq_true.mp h) l (by simp)
    have hls : ls.all lineOk = true := by
      rw [List.all_eq_true]
      intro t ht
      exact (List.all_eq_true.mp h) t (by simp [ht])
    rw [List.filterMap_cons]
    show scanStep (scanWindow ls) l = _
    unfold lineOk at hl
    cases hsearch : searchCoordChars l with
    | none =>
      rw [show atomOfLine l = none from by simp only [atomOfLine, hsearch]]
      rw [scanStep_none _ _ hsearch]
      exact ih hls
    | some g =>
      obtain ⟨w', a, b, c⟩ := g
      rw [hsearch] at hl
      have ha := (Bool.and_eq_true _ _).mp hl
      have hb := (Bool.and_eq_true _ _).mp ha.1
      obtain ⟨x, hx⟩ := Option.isSome_iff_exists.mp hb.1
      obtain ⟨y, hy⟩ := Option.isSome_iff_exists.mp hb.2
      obtain ⟨z, hz⟩ := Option.isSome_iff_exists.mp ha.2
      rw [show atomOfLine l = some ⟨w', x, y, z⟩ from by
        simp only [atomOfLine, hsearch, hx, hy, hz]]
      rw [scanStep_some _ _ w' a b c x y z hsearch hx hy hz]
      rw [ih hls]
      rfl

theorem filterMap_length_eq_countP (w : List (List Char)) (h : w.all lineOk = true) :
    (w.filterMap atomOfLine).length =
      w.countP (fun l => (searchCoordChars l).isSome) := by
  induction w with
  | nil => simp
  | cons l ls ih =>
    have hl : lineOk l = true := (List.all_eq_true.mp h) l (by simp)
    have hls : ls.all lineOk = true := by
      rw [List.all_eq_true]
      intro t ht
      exact (List.all_eq_true.mp h) t (by simp [ht])
    rw [List.filterMap_cons, List.countP_cons]
    unfold lineOk at hl
    cases hsearch : searchCoordChars l with
    | none =>
      rw [show atomOfLine l = none from by simp only [atomOfLine, hsearch]]
      rw [ih hls]
      simp
    | some g =>
      obtain ⟨w', a, b, c⟩ := g
      rw [hsearch] at hl
      have ha := (Bool.and_eq_true _ _).mp hl
      have hb := (Bool.and_eq_true _ _).mp ha.1
      obtain ⟨x, hx⟩ := Option.isSome_iff_exists.mp hb.1
      obtain ⟨y, hy⟩ := Option.isSome_iff_exists.mp hb.2
      obtain ⟨z, hz⟩ := Option.isSome_iff_exists.mp ha.2
      rw [show atomOfLine l = some ⟨w', x, y, z⟩ from by
        simp only [atomOfLine, hsearch, hx, hy, hz]]
      rw [List.length_cons, ih hls]
      simp

theorem scanStep_intError (res : Except PyExc (List Site)) (l : List Char) (t : List Char)
    (h : scanStep res l = .error (.valueErrorInt t)) : res = .error (.valueErrorInt t) := by
  unfold scanStep at h
  split at h
  · exact h
  · split at h
    · cases h
    · split at h
      · cases h
      · split at h
        · cases h
        · cases res with
          | error e => cases h; rfl
          | ok v => cases h

theorem scanLines_ne_intError (lines : List (List Char)) :
    ∀ (is : List ℕ) (t : List Char), scanLines lines is ≠ .error (.valueErrorInt t) := by
  intro is
  induction is with
  | nil => intro t h; cases h
  | cons i rest ih =>
    intro t h
    unfold scanLines at h
    cases hidx : lines[i]? with
    | none => rw [hidx] at h; cases h
    | some line =>
      rw [hidx] at h
      exact ih t (scanStep_intError _ _ _ h)

/-! ## Lemmas: the single-frame round trip -/

theorem spacefree_ne_nl (c : Char) (h : isSpaceChar c = false) : ¬(c = '\n') := by
  intro heq
  subst heq
  exact absurd h (by decide)

theorem lineOf_nlFree (p : ℕ) (s : Site) (h : ∀ c ∈ s.specie, isSpaceChar c = false) :
    nlFree (lineOf p s) = true := by
  rw [nlFree, List.all_eq_true]
  intro c hc
  rw [Bool.not_eq_true', decide_eq_false_iff_not]
  unfold lineOf at hc
  rcases List.mem_append.mp hc with hc | hc
  · exact spacefree_ne_nl c (h c hc)
  · rcases List.mem_cons.mp hc with hc | hc
    · subst hc; decide
    · rcases List.mem_append.mp hc with hc | hc
      · exact num_ne_nl c (fmtFloat_all_num s.x p c hc)
      · rcases List.mem_cons.mp hc with hc | hc
        · subst hc; decide
        · rcases List.mem_append.mp hc with hc | hc
          · exact num_ne_nl c (fmtFloat_all_num s.y p c hc)
          · rcases List.mem_cons.mp hc with hc | hc
            · subst hc; decide
            · exact num_ne_nl c (fmtFloat_all_num s.z p c hc)

theorem natRender_nlFree (n : ℕ) : nlFree (natRender n) = true := by
  rw [nlFree, List.all_eq_true]
  intro c hc
  rw [Bool.not_eq_true', decide_eq_false_iff_not]
  exact digit_ne_nl c (natRender_all_digit n c hc)

theorem wfMol_spacefree (mol : List Site) (h : wfMol mol = true) :
    ∀ s ∈ mol, ∀ c ∈ s.specie, isSpaceChar c = false := by
  intro s hs c hc
  have htok : isWordToken s.specie = true := (List.all_eq_true.mp h) s hs
  have hword : isWordChar c = true :=
    (List.all_eq_true.mp ((Bool.and_eq_true _ _).mp htok).2) c hc
  exact word_not_space c hword

theorem wfMolTokens_spacefree (mol : List Site) (h : wfMolTokens mol = true) :
    ∀ s ∈ mol, ∀ c ∈ s.specie, isSpaceChar c = false := by
  intro s hs c hc
  have htok : isLabelToken s.specie = true := (List.all_eq_true.mp h) s hs
  have := (List.all_eq_true.mp ((Bool.and_eq_true _ _).mp htok).2) c hc
  rw [Bool.not_eq_true'] at this
  exact this

theorem splitNL_xyzStrChars (p : ℕ) (mol : List Site) (formula : List Char)
    (hm : ∀ s ∈ mol, ∀ c ∈ s.specie, isSpaceChar c = false) (hf : nlFree formula = true) :
    splitNL (xyzStrChars mol formula p) =
      natRender mol.length :: formula :: mol.map (lineOf p) := by
  unfold xyzStrChars
  apply splitNL_joinNL
  · simp
  · intro l hl
    rcases List.mem_cons.mp hl with hl | hl
    · subst hl; exact natRender_nlFree _
    · rcases List.mem_cons.mp hl with hl | hl
      · subst hl; exact hf
      · obtain ⟨s, hs, hls⟩ := List.mem_map.mp hl
        subst hls
        exact lineOf_nlFree p s (hm s hs)

theorem splitNL_xyzStrChars_nl (p : ℕ) (mol : List Site) (formula : List Char)
    (hm : ∀ s ∈ mol, ∀ c ∈ s.specie, isSpaceChar c = false) (hf : nlFree formula = true) :
    splitNL (xyzStrChars mol formula p ++ ['\n']) =
      natRender mol.length :: formula :: (mol.map (lineOf p) ++ [[]]) := by
  unfold xyzStrChars
  rw [show (['\n'] : List Char) = '\n' :: [] from rfl]
  rw [splitNL_joinNL_append _ (by simp) _ []]
  · rfl
  · intro l hl
    rcases List.mem_cons.mp hl with hl | hl
    · subst hl; exact natRender_nlFree _
    · rcases List.mem_cons.mp hl with hl | hl
      · subst hl; exact hf
      · obtain ⟨s, hs, hls⟩ := List.mem_map.mp hl
        subst hls
        exact lineOf_nlFree p s (hm s hs)

theorem xyzFromLines_format (p : ℕ) (mol : List Site) (formula : List Char)
    (extra : List (List Char)) (hm : wfMol mol = true) :
    xyzFromLines (natRender mol.length :: formula :: (mol.map (lineOf p) ++ extra)) =
      .ok ⟨mol.map (parsedOf p), 6⟩ := by
  simp only [xyzFromLines, pyParseIntChars_natRender]
  rw [show ((mol.length : ℤ)).toNat = mol.length from rfl]
  have hlen : 2 + mol.length ≤
      (natRender mol.length :: formula :: (mol.map (lineOf p) ++ extra)).length := by
    simp only [List.length_cons, List.length_append, List.length_map]
    omega
  rw [scanLines_eq_scanWindow mol.length 2 _ hlen]
  have hdrop : (natRender mol.length :: formula :: (mol.map (lineOf p) ++ extra)).drop 2 =
      mol.map (lineOf p) ++ extra := rfl
  rw [hdrop]
  rw [show mol.length = (mol.map (lineOf p)).length from (List.length_map _ _).symm]
  rw [List.take_left]
  rw [scanWindow_format p mol hm]
  rfl

/-! ## Claim C1: single-frame round trip -/

/-- C1, amended: for every frame whose element labels are nonempty strings
of word characters and whose collaborator formula contains no newline, and
every precision `P`, parsing the text produced by formatting the frame at
precision `P` (`XYZ.from_string` applied to `str(XYZ(F, P))`) yields a
frame with the same atom count, the same element labels in the same order,
and each coordinate within `10^(-P)` of the original.  (As stated over all
frames the claim is false: a label such as `"Fe2+"` is not matched by the
coordinate pattern and its atom is dropped, see the counterexample.) -/
theorem c1_single_frame_roundtrip (mol : List Site) (formula : List Char) (p : ℕ)
    (hm : wfMol mol = true) (hf : nlFree formula = true) :
    ∃ mol2 : List Site,
      XYZ.from_string (XYZ.str (XYZ.initWith mol p) formula) = .ok (XYZ.mk mol2 6) ∧
      mol2.length = mol.length ∧
      mol2.map Site.specie = mol.map Site.specie ∧
      List.Forall₂ (fun a b : Site => |a.x - b.x| ≤ 1 / (10 : ℚ) ^ p ∧
        |a.y - b.y| ≤ 1 / (10 : ℚ) ^ p ∧ |a.z - b.z| ≤ 1 / (10 : ℚ) ^ p) mol2 mol := by
  refine ⟨mol.map (parsedOf p), ?_, by simp, ?_, ?_⟩
  · show xyzFromChars (xyzStrChars mol formula p) = _
    unfold xyzFromChars
    rw [splitNL_xyzStrChars p mol formula (wfMol_spacefree mol hm) hf]
    rw [show natRender mol.length :: formula :: mol.map (lineOf p)
        = natRender mol.length :: formula :: (mol.map (lineOf p) ++ []) by simp]
    exact xyzFromLines_format p mol formula [] hm
  · rw [List.map_map]
    exact List.map_congr_left (fun s _ => rfl)
  · rw [List.forall₂_map_left_iff]
    rw [List.forall₂_same]
    intro s _
    exact ⟨rndq_close s.x p, rndq_close s.y p, rndq_close s.z p⟩

/-- C1, counterexample: the species label `Fe2+` (a legitimate species
string of the collaborator) contains `+`, which the coordinate pattern's
`\w+` does not match; the formatted frame of one atom parses back to a
frame with zero atoms, so the round trip does not preserve the atom
count. -/
theorem c1_counterexample :
    XYZ.from_string (XYZ.str (XYZ.initWith [⟨"Fe2+".toList, 0, 0, 0⟩] 6) "Fe2+1".toList) =
      .ok (XYZ.mk [] 6) ∧ ([⟨"Fe2+".toList, 0, 0, 0⟩] : List Site).length = 1 := by
  constructor
  · decide
  · rfl

/-- C1, witness: the round-trip theorem applied to a concrete one-atom
frame at precision 2. -/
theorem c1_single_frame_roundtrip_witness :
    ∃ mol2 : List Site,
      XYZ.from_string (XYZ.str (XYZ.initWith [⟨['H'], 1, 2, -(1 : ℚ)/2⟩] 2) "H1".toList) =
        .ok (XYZ.mk mol2 6) ∧
      mol2.length = ([⟨['H'], 1, 2, -(1 : ℚ)/2⟩] : List Site).length ∧
      mol2.map Site.specie = ([⟨['H'], 1, 2, -(1 : ℚ)/2⟩] : List Site).map Site.specie ∧
      List.Forall₂ (fun a b : Site => |a.x - b.x| ≤ 1 / (10 : ℚ) ^ 2 ∧
        |a.y - b.y| ≤ 1 / (10 : ℚ) ^ 2 ∧ |a.z - b.z| ≤ 1 / (10 : ℚ) ^ 2) mol2
        [⟨['H'], 1, 2, -(1 : ℚ)/2⟩] :=
  c1_single_frame_roundtrip [⟨['H'], 1, 2, -(1 : ℚ)/2⟩] "H1".toList 2 (by decide) (by decide)

/-! ## Claim C10: substring search, not anchored -/

theorem searchCoord_leftmost :
    ∀ (k : ℕ) (l : List Char) (g : List Char × List Char × List Char × List Char),
      matchCoordAt (l.drop k) = some g → (∀ j, j < k → matchCoordAt (l.drop j) = none) →
      searchCoordChars l = some g := by
  intro k
  induction k with
  | zero =>
    intro l g h _
    rw [List.drop_zero] at h
    exact searchCoordChars_of_matchAt l g h
  | succ k ih =>
    intro l g h hfirst
    cases l with
    | nil =>
      rw [List.drop_nil] at h
      rw [show matchCoordAt ([] : List Char) = none from rfl] at h
      cases h
    | cons hd tl =>
      have h0 : matchCoordAt (hd :: tl) = none := by
        have := hfirst 0 (Nat.succ_pos k)
        rw [List.drop_zero] at this
        exact this
      unfold searchCoordChars
      rw [h0]
      exact ih tl g h (fun j hj => hfirst (j + 1) (by omega))

/-- C10: per-line matching is a substring search, not an anchored
full-line match.  If the coordinate pattern matches at position `k` of a
line and at no earlier position, then `re.search` returns exactly the
groups of that first occurrence — leading garbage before the occurrence
and extra text after the third number do not prevent the match — and the
scan turns the line into the atom built from those groups. -/
theorem c10_substring_search (l : List Char) (k : ℕ)
    (w a b c : List Char) (x y z : ℚ)
    (hmatch : matchCoordAt (l.drop k) = some (w, a, b, c))
    (hfirst : ∀ j, j < k → matchCoordAt (l.drop j) = none)
    (hx : pyFloatChars a = some x) (hy : pyFloatChars b = some y)
    (hz : pyFloatChars c = some z) :
    searchCoordChars l = some (w, a, b, c) ∧
    scanWindow [l] = .ok [⟨w, x, y, z⟩] := by
  have hsearch : searchCoordChars l = some (w, a, b, c) :=
    searchCoord_leftmost k l _ hmatch hfirst
  refine ⟨hsearch, ?_⟩
  show scanStep (scanWindow []) l = _
  rw [scanStep_some _ _ w a b c x y z hsearch hx hy hz]
  rfl

/-- C10, witness: a line with junk before the pattern (the first match is
at position 3) and extra text after the third number. -/
theorem c10_substring_search_witness :
    searchCoordChars "$$ H 1.5 2.5 3.5 tail!".data =
      some ("H".data, "1.5".data, "2.5".data, "3.5".data) ∧
    scanWindow ["$$ H 1.5 2.5 3.5 tail!".data] =
      .ok [⟨"H".data, 3/2, 5/2, 7/2⟩] :=
  c10_substring_search "$$ H 1.5 2.5 3.5 tail!".data 3
    "H".data "1.5".data "2.5".data "3.5".data (3/2) (5/2) (7/2)
    (by decide) (by intro j hj; interval_cases j <;> decide) (by decide) (by decide) (by decide)

/-! ## Claim C4: unconvertible numeric token -/

/-- C4: the token `e` is accepted by the numeric character class and
captured by the pattern, and `float("e")` then raises: in the model the
parse of `"1\ncomment\nH e 1.0 2.0"` stops with the `ValueError` raised by
the float conversion of the token `e` (`valueErrorFloat`), which in the
source propagates unhandled — there is no `FormatError` and no explicit
handler in the conversion step. -/
theorem c4_float_conversion_fault :
    searchCoordChars "H e 1.0 2.0".data =
      some ("H".data, "e".data, "1.0".data, "2.0".data) ∧
    XYZ.from_string "1\ncomment\nH e 1.0 2.0" = .error (.valueErrorFloat "e".data) := by
  constructor
  · decide
  · decide

/-! ## Claim C2: undercount tolerance -/

/-- C2, amended: when the input has at least `2 + N` lines (so that the
scanned window exists in full) and every matching window line has
convertible tokens, parsing succeeds and produces exactly one atom per
matching line of the window — fewer than `N` atoms when fewer than `N`
lines match, with no padding and no error.  (As stated the claim is false:
when the text has fewer than `2 + N` lines the scan indexes past the end
of the line list and faults with `IndexError`, see the counterexample.) -/
theorem c2_undercount_tolerance (contents : String) (N : ℤ)
    (hHeader : pyParseIntChars ((xyzLines contents).headD []) = some N)
    (hLen : 2 + N.toNat ≤ (xyzLines contents).length)
    (hOk : (xyzWindow contents N.toNat).all lineOk = true) :
    ∃ mol : List Site,
      XYZ.from_string contents = .ok (XYZ.mk mol 6) ∧
      mol.length = (xyzWindow contents N.toNat).countP (fun l => (searchCoordChars l).isSome) ∧
      mol.length ≤ N.toNat := by
  obtain ⟨l0, rest, hsplit⟩ := List.exists_cons_of_ne_nil (splitNL_ne_nil contents.data)
  have hlines : xyzLines contents = l0 :: rest := hsplit
  have hH0 : pyParseIntChars l0 = some N := by
    rw [hlines] at hHeader
    exact hHeader
  refine ⟨(xyzWindow contents N.toNat).filterMap atomOfLine, ?_, ?_, ?_⟩
  · show xyzFromLines (xyzLines contents) = _
    rw [hlines]
    simp only [xyzFromLines, hH0]
    rw [scanLines_eq_scanWindow N.toNat 2 _ (by rw [← hlines]; exact hLen)]
    rw [show ((l0 :: rest).drop 2).take N.toNat = xyzWindow contents N.toNat by
      rw [xyzWindow, hlines]]
    rw [scanWindow_ok_of_all _ hOk]
    rfl
  · exact filterMap_length_eq_countP _ hOk
  · rw [filterMap_length_eq_countP _ hOk]
    calc (xyzWindow contents N.toNat).countP (fun l => (searchCoordChars l).isSome)
        ≤ (xyzWindow contents N.toNat).length := List.countP_le_length _
    _ ≤ N.toNat := List.length_take_le _ _

/-- C2, counterexample: the header declares `N = 3` but the text has only
3 lines, so the scan evaluates `lines[3]` and faults with `IndexError`
instead of returning a short frame. -/
theorem c2_counterexample :
    XYZ.from_string "3\ncomment\nH 1.0 2.0 3.0" = .error .indexError := by
  decide

/-- C2, witness: header `N = 3`, full window present, one window line
does not match: two atoms come back, no error. -/
theorem c2_undercount_tolerance_witness :
    (∃ mol : List Site,
      XYZ.from_string "3\ncmt\nH 1.0 2.0 3.0\n???\nO 4.0 5.0 6.0" = .ok (XYZ.mk mol 6) ∧
      mol.length = (xyzWindow "3\ncmt\nH 1.0 2.0 3.0\n???\nO 4.0 5.0 6.0" (3 : ℤ).toNat).countP
        (fun l => (searchCoordChars l).isSome) ∧
      mol.length ≤ (3 : ℤ).toNat) ∧
    (xyzWindow "3\ncmt\nH 1.0 2.0 3.0\n???\nO 4.0 5.0 6.0" (3 : ℤ).toNat).countP
        (fun l => (searchCoordChars l).isSome) = 2 :=
  ⟨c2_undercount_tolerance "3\ncmt\nH 1.0 2.0 3.0\n???\nO 4.0 5.0 6.0" 3
    (by decide) (by decide) (by decide), by decide⟩

/-! ## Claim C6: tolerant skipping -/

/-- C6: within the scanned window, a line that does not match the
coordinate pattern contributes no atom and raises no error: under the same
conditions as the undercount property, the parsed frame is exactly the
window's `filterMap` through `atomOfLine`, which sends non-matching lines
to `none`.  In particular a frame declaring `N = 3` whose window has
exactly 2 matching lines and one garbage line parses to exactly 2 atoms
with no error (see the witness). -/
theorem c6_tolerant_skipping (contents : String) (N : ℤ)
    (hHeader : pyParseIntChars ((xyzLines contents).headD []) = some N)
    (hLen : 2 + N.toNat ≤ (xyzLines contents).length)
    (hOk : (xyzWindow contents N.toNat).all lineOk = true) :
    XYZ.from_string contents =
      .ok (XYZ.mk ((xyzWindow contents N.toNat).filterMap atomOfLine) 6) := by
  obtain ⟨l0, rest, hsplit⟩ := List.exists_cons_of_ne_nil (splitNL_ne_nil contents.data)
  have hlines : xyzLines contents = l0 :: rest := hsplit
  have hH0 : pyParseIntChars l0 = some N := by
    rw [hlines] at hHeader
    exact hHeader
  show xyzFromLines (xyzLines contents) = _
  rw [hlines]
  simp only [xyzFromLines, hH0]
  rw [scanLines_eq_scanWindow N.toNat 2 _ (by rw [← hlines]; exact hLen)]
  rw [show ((l0 :: rest).drop 2).take N.toNat = xyzWindow contents N.toNat by
    rw [xyzWindow, hlines]]
  rw [scanWindow_ok_of_all _ hOk]
  rfl

/-- C6, witness: `N = 3`, three window lines of which the middle one is
garbage text: exactly 2 atoms, no error. -/
theorem c6_tolerant_skipping_witness :
    (XYZ.from_string "3\nwater\nH 0.0 0.0 0.0\ngarbage line\nO 1.0 1.0 1.0" =
      .ok (XYZ.mk ((xyzWindow "3\nwater\nH 0.0 0.0 0.0\ngarbage line\nO 1.0 1.0 1.0"
        (3 : ℤ).toNat).filterMap atomOfLine) 6)) ∧
    ((xyzWindow "3\nwater\nH 0.0 0.0 0.0\ngarbage line\nO 1.0 1.0 1.0"
        (3 : ℤ).toNat).filterMap atomOfLine).length = 2 :=
  ⟨c6_tolerant_skipping "3\nwater\nH 0.0 0.0 0.0\ngarbage line\nO 1.0 1.0 1.0" 3
    (by decide) (by decide) (by decide), by decide⟩

/-! ## Claim C7: invalid header -/

theorem except_map_eq_error {α β : Type} (f : α → β) (r : Except PyExc α) (e : PyExc)
    (h : r.map f = .error e) : r = .error e := by
  cases r with
  | error e2 =>
    simp only [Except.map] at h
    injection h with h2
    rw [h2]
  | ok v =>
    simp only [Except.map] at h
    cases h

theorem except_map_eq_ok {α β : Type} (f : α → β) (r : Except PyExc α) (x : β)
    (h : r.map f = .ok x) : ∃ v, r = .ok v ∧ x = f v := by
  cases r with
  | error e =>
    simp only [Except.map] at h
    cases h
  | ok v =>
    simp only [Except.map] at h
    injection h with h2
    exact ⟨v, rfl, h2.symm⟩

/-- C7: single-frame parsing fails with the header conversion error
(`valueErrorInt`, the `ValueError` that `int(lines[0])` raises, the
specification's `FormatError(InvalidHeader)`) exactly when the first line
is not parseable as a decimal integer; and when it parses to `N`, that
value drives the scan: the result is the scan of the line window
`range(2, 2 + N)`. -/
theorem c7_invalid_header (contents : String) :
    (XYZ.from_string contents =
        .error (.valueErrorInt ((xyzLines contents).headD [])) ↔
      pyParseIntChars ((xyzLines contents).headD []) = none) ∧
    (∀ N : ℤ, pyParseIntChars ((xyzLines contents).headD []) = some N →
      XYZ.from_string contents =
        (scanLines (xyzLines contents) (List.range' 2 N.toNat)).map
          (fun mol => XYZ.mk mol 6)) := by
  obtain ⟨l0, rest, hsplit⟩ := List.exists_cons_of_ne_nil (splitNL_ne_nil contents.data)
  have hlines : xyzLines contents = l0 :: rest := hsplit
  have hhead : (xyzLines contents).headD [] = l0 := by rw [hlines]; rfl
  constructor
  · rw [hhead]
    constructor
    · intro h
      cases hH : pyParseIntChars l0 with
      | none => rfl
      | some N =>
        exfalso
        have hfs : XYZ.from_string contents =
            (scanLines (l0 :: rest) (List.range' 2 N.toNat)).map (fun mol => XYZ.mk mol 6) := by
          show xyzFromLines (xyzLines contents) = _
          rw [hlines]
          simp only [xyzFromLines, hH]
        rw [hfs] at h
        exact scanLines_ne_intError (l0 :: rest) _ l0 (except_map_eq_error _ _ _ h)
    · intro h
      show xyzFromLines (xyzLines contents) = _
      rw [hlines]
      simp only [xyzFromLines, h]
  · intro N hH
    rw [hhead] at hH
    show xyzFromLines (xyzLines contents) = _
    rw [hlines]
    simp only [xyzFromLines, hH]

/-- C7, witness: the second part applied to the header `5` with too few
lines in the text, and the first part applied to an unparseable header. -/
theorem c7_invalid_header_witness :
    (XYZ.from_string "5\nx" =
      (scanLines (xyzLines "5\nx") (List.range' 2 (5 : ℤ).toNat)).map
        (fun mol => XYZ.mk mol 6)) ∧
    XYZ.from_string "abc\nx" = .error (.valueErrorInt ((xyzLines "abc\nx").headD [])) :=
  ⟨(c7_invalid_header "5\nx").2 5 (by decide),
    (c7_invalid_header "abc\nx").1.mpr (by decide)⟩

/-! ## Claim C8: precision never round-trips through parsing -/

theorem xyzFromLines_ok_precision (lines : List (List Char)) (x : XYZ)
    (h : xyzFromLines lines = .ok x) : x.precision = 6 := by
  unfold xyzFromLines at h
  split at h
  · cases h
  · split at h
    · cases h
    · obtain ⟨v, _, hx⟩ := except_map_eq_ok _ _ _ h
      rw [hx]

theorem mxyzCore_ok_precision (cs : List Char) (m : MXYZ)
    (h : mxyzCore cs = .ok m) : m.precision = 6 := by
  unfold mxyzCore at h
  cases hmols : molsOfTexts (finditerFrames cs) with
  | error e => rw [hmols] at h; cases h
  | ok ms =>
    rw [hmols] at h
    cases h
    rfl

/-- C8: every document produced by parsing carries the default
serialization precision 6 — `XYZ.from_string` and `MXYZ.from_string`
always construct their result with precision 6, regardless of the input's
digit widths — while the constructors default to 6 and only an explicit
`coord_precision` argument yields a different value. -/
theorem c8_default_precision :
    (∀ (s : String) (x : XYZ), XYZ.from_string s = .ok x → x.precision = 6) ∧
    (∀ (s : String) (m : MXYZ), MXYZ.from_string s = .ok m → m.precision = 6) ∧
    (∀ mol, (XYZ.init mol).precision = 6) ∧
    (∀ mols, (MXYZ.init mols).precision = 6) ∧
    (∀ mol p, (XYZ.initWith mol p).precision = p) ∧
    (∀ mols p, (MXYZ.initWith mols p).precision = p) := by
  refine ⟨?_, ?_, fun _ => rfl, fun _ => rfl, fun _ _ => rfl, fun _ _ => rfl⟩
  · intro s x h
    exact xyzFromLines_ok_precision _ x h
  · intro s m h
    unfold MXYZ.from_string at h
    split at h
    · cases h
    · split at h
      · exact mxyzCore_ok_precision _ m h
      · exact mxyzCore_ok_precision _ m h

/-- C8, witness: a parse whose input shows 1 and 8 fraction digits still
yields precision 6, for both codecs. -/
theorem c8_default_precision_witness :
    (XYZ.mk [⟨['H'], 1/2, 1/2, 1/2⟩] 6).precision = 6 ∧
    (MXYZ.mk [[⟨['H'], 1/2, 1/2, 1/2⟩]] 6).precision = 6 :=
  ⟨c8_default_precision.1 "1\nc\nH 0.5 0.50000000 0.5" (XYZ.mk [⟨['H'], 1/2, 1/2, 1/2⟩] 6)
      (by decide),
    c8_default_precision.2.1 "1\nc\nH 0.5 0.50000000 0.5\n"
      (MXYZ.mk [[⟨['H'], 1/2, 1/2, 1/2⟩]] 6) (by decide)⟩

/-! ## Claim C9: multi-frame parsing of the empty string faults -/

/-- C9: `MXYZ.from_string` inspects the last character of its input, so the
empty string faults with `IndexError` before any scanning (it does not
return an empty zero-frame document), and for every nonempty input that
does not already end in a newline, a newline is appended before scanning —
equivalently, parsing such an input equals parsing the input with a
newline appended. -/
theorem c9_empty_input_faults :
    MXYZ.from_string "" = .error .indexError ∧
    ∀ s : String, s.data ≠ [] → s.data.getLast? ≠ some '\n' →
      MXYZ.from_string s = MXYZ.from_string (s ++ "\n") := by
  constructor
  · rfl
  · intro s h1 h2
    obtain ⟨c, hc⟩ := Option.isSome_iff_exists.mp (List.getLast?_isSome.mpr h1)
    have hcn : ¬(c = '\n') := by
      intro heq
      subst heq
      exact h2 hc
    have hdata : (s ++ "\n").data = s.data ++ ['\n'] := by
      rw [String.data_append]
    have hlast2 : (s ++ "\n").data.getLast? = some '\n' := by
      rw [hdata]
      exact List.getLast?_concat _
    show (match s.data.getLast? with
      | none => Except.error PyExc.indexError
      | some c => if c = '\n' then mxyzCore s.data else mxyzCore (s.data ++ ['\n'])) = _
    rw [hc]
    simp only [if_neg hcn]
    show _ = (match (s ++ "\n").data.getLast? with
      | none => Except.error PyExc.indexError
      | some c => if c = '\n' then mxyzCore (s ++ "\n").data
        else mxyzCore ((s ++ "\n").data ++ ['\n']))
    rw [hlast2, hdata]
    simp

/-- C9, witness: parsing `"x"` equals parsing `"x\n"`. -/
theorem c9_empty_input_faults_witness :
    MXYZ.from_string "x" = MXYZ.from_string ("x" ++ "\n") :=
  c9_empty_input_faults.2 "x" (by decide) (by decide)

/-! ## Claim C5: format output shape -/

theorem fmtFloat_fixedPointShape (q : ℚ) (p : ℕ) :
    fixedPointShape p (decide (q < 0)) (fmtFloat q p) := by
  obtain ⟨ds, fs, hne, hds, hfs, hlen, heq⟩ := fmtFloat_shape q p
  refine ⟨ds, fs, hne, List.all_eq_true.mpr hds, List.all_eq_true.mpr hfs, hlen, ?_⟩
  rw [heq]
  have hsgn : (if (decide (q < 0)) = true then (['-'] : List Char) else []) =
      (if q < 0 then ['-'] else []) := by
    by_cases hq : q < 0 <;> simp [hq]
  rw [hsgn]

theorem lineOf_getLast_digit (p : ℕ) (s : Site) :
    ∃ c, (lineOf p s).getLast? = some c ∧ c.isDigit = true := by
  obtain ⟨c, hc, hd⟩ := fmtFloat_getLast_digit s.z p
  refine ⟨c, ?_, hd⟩
  unfold lineOf
  rw [getLast?_append_right _ _ (by simp)]
  rw [show (' ' :: (fmtFloat s.x p ++ ' ' :: (fmtFloat s.y p ++ ' ' :: fmtFloat s.z p))) =
    [' '] ++ (fmtFloat s.x p ++ ' ' :: (fmtFloat s.y p ++ ' ' :: fmtFloat s.z p)) from rfl]
  rw [getLast?_append_right _ _ (by
    intro hnil
    rcases List.append_eq_nil.mp hnil with ⟨h1, _⟩
    exact fmtFloat_ne_nil s.x p h1)]
  rw [getLast?_append_right _ _ (by simp)]
  rw [show (' ' :: (fmtFloat s.y p ++ ' ' :: fmtFloat s.z p)) =
    [' '] ++ (fmtFloat s.y p ++ ' ' :: fmtFloat s.z p) from rfl]
  rw [getLast?_append_right _ _ (by
    intro hnil
    rcases List.append_eq_nil.mp hnil with ⟨h1, _⟩
    exact fmtFloat_ne_nil s.y p h1)]
  rw [getLast?_append_right _ _ (by simp)]
  rw [show (' ' :: fmtFloat s.z p) = [' '] ++ fmtFloat s.z p from rfl]
  rw [getLast?_append_right _ _ (fmtFloat_ne_nil s.z p)]
  exact hc

theorem joinNL_ne_nil_of_last :
    ∀ (parts : List (List Char)) (l : List Char), l ≠ [] → joinNL (parts ++ [l]) ≠ [] := by
  intro parts l hl
  cases parts with
  | nil => simpa [joinNL] using hl
  | cons x xs =>
    rw [List.cons_append, joinNL_cons x (xs ++ [l]) (by simp)]
    simp

theorem getLast?_joinNL :
    ∀ (parts : List (List Char)) (l : List Char), l ≠ [] →
      (joinNL (parts ++ [l])).getLast? = l.getLast? := by
  intro parts
  induction parts with
  | nil => intro l _; rfl
  | cons x xs ih =>
    intro l hl
    rw [List.cons_append, joinNL_cons x (xs ++ [l]) (by simp)]
    rw [getLast?_append_right _ _ (by simp)]
    rw [show ('\n' :: joinNL (xs ++ [l])) = ['\n'] ++ joinNL (xs ++ [l]) from rfl]
    rw [getLast?_append_right _ _ (joinNL_ne_nil_of_last xs l hl)]
    exact ih l hl

theorem lineOf_ne_nil (p : ℕ) (s : Site) : lineOf p s ≠ [] := by
  unfold lineOf
  intro h
  rcases List.append_eq_nil.mp h with ⟨_, h2⟩
  cases h2

/-- C5: the formatted text's first line, parsed as an integer, is the atom
count; its second line is verbatim the collaborator's formula; each atom
line is the label and the three coordinates in fixed-point decimal with
exactly `P` digits after the point (sign exactly for negatives, no
exponent), fields separated by single spaces; and for a nonempty frame the
output does not end in a newline (the last character is a digit of the
last coordinate). -/
theorem c5_format_shape (mol : List Site) (formula : List Char) (p : ℕ)
    (hm : wfMolTokens mol = true) (hf : nlFree formula = true) :
    (splitNL (xyzStrChars mol formula p)).length = 2 + mol.length ∧
    pyParseIntChars ((splitNL (xyzStrChars mol formula p)).headD []) = some (mol.length : ℤ) ∧
    (splitNL (xyzStrChars mol formula p)).getD 1 [] = formula ∧
    (∀ j (hj : j < mol.length),
      ∃ f1 f2 f3 : List Char,
        fixedPointShape p (decide (mol[j].x < 0)) f1 ∧
        fixedPointShape p (decide (mol[j].y < 0)) f2 ∧
        fixedPointShape p (decide (mol[j].z < 0)) f3 ∧
        (splitNL (xyzStrChars mol formula p)).getD (2 + j) [] =
          mol[j].specie ++ ' ' :: (f1 ++ ' ' :: (f2 ++ ' ' :: f3))) ∧
    (mol ≠ [] → (xyzStrChars mol formula p).getLast? ≠ some '\n') := by
  have hsplit := splitNL_xyzStrChars p mol formula (wfMolTokens_spacefree mol hm) hf
  refine ⟨?_, ?_, ?_, ?_, ?_⟩
  · rw [hsplit]
    simp only [List.length_cons, List.length_map]
    omega
  · rw [hsplit]
    exact pyParseIntChars_natRender mol.length
  · rw [hsplit]
    rfl
  · intro j hj
    refine ⟨fmtFloat mol[j].x p, fmtFloat mol[j].y p, fmtFloat mol[j].z p,
      fmtFloat_fixedPointShape _ p, fmtFloat_fixedPointShape _ p,
      fmtFloat_fixedPointShape _ p, ?_⟩
    rw [hsplit]
    rw [show 2 + j = j + 1 + 1 from by omega]
    rw [List.getD_cons_succ, List.getD_cons_succ]
    rw [List.getD_eq_getElem _ _ (by simpa using hj)]
    rw [List.getElem_map]
    rfl
  · intro hne
    obtain ⟨front, last, hdecomp⟩ := (List.eq_nil_or_concat mol).resolve_left hne
    rw [List.concat_eq_append] at hdecomp
    subst hdecomp
    obtain ⟨c, hc, hd⟩ := lineOf_getLast_digit p last
    unfold xyzStrChars
    rw [List.map_append, List.map_cons, List.map_nil]
    rw [show natRender (front ++ [last]).length :: formula ::
        (front.map (lineOf p) ++ [lineOf p last]) =
      (natRender (front ++ [last]).length :: formula :: front.map (lineOf p)) ++
        [lineOf p last] from by simp]
    rw [getLast?_joinNL _ _ (lineOf_ne_nil p last), hc]
    intro heq
    rw [Option.some_inj] at heq
    subst heq
    exact absurd hd (by decide)

/-- C5, witness: a two-atom frame at precision 2, one negative coordinate;
the last conjunct checked at the concrete output. -/
theorem c5_format_shape_witness :
    (splitNL (xyzStrChars [⟨['H'], 1, 2, -(1 : ℚ)/2⟩] "H1".toList 2)).length = 2 + 1 ∧
    ((splitNL (xyzStrChars [⟨['H'], 1, 2, -(1 : ℚ)/2⟩] "H1".toList 2)).getD 1 [] =
      "H1".toList) ∧
    (xyzStrChars [⟨['H'], 1, 2, -(1 : ℚ)/2⟩] "H1".toList 2).getLast? ≠ some '\n' := by
  have h := c5_format_shape [⟨['H'], 1, 2, -(1 : ℚ)/2⟩] "H1".toList 2 (by decide) (by decide)
  exact ⟨h.1, h.2.2.1, h.2.2.2.2 (by decide)⟩

/-! ## Lemmas: consumption of the multi-frame matchers -/

theorem splitLastNL_append :
    ∀ (t u v : List Char), splitLastNL t = some (u, v) → t = u ++ '\n' :: v := by
  intro t
  induction t with
  | nil => intro u v h; cases h
  | cons c cs ih =>
    intro u v h
    unfold splitLastNL at h
    cases hrec : splitLastNL cs with
    | some p =>
      obtain ⟨a, b⟩ := p
      rw [hrec] at h
      injection h with h2
      injection h2 with h3 h4
      subst h3
      subst h4
      rw [ih a b hrec]
      rfl
    | none =>
      rw [hrec] at h
      by_cases hc : c = '\n'
      · rw [if_pos hc] at h
        injection h with h2
        injection h2 with h3 h4
        subst h3
        subst h4
        rw [hc]
        rfl
      · rw [if_neg hc] at h
        cases h

theorem matchNAtomsLine_append (cs t r : List Char) (h : matchNAtomsLine cs = some (t, r)) :
    cs = t ++ r ∧ t ≠ [] := by
  simp only [matchNAtomsLine] at h
  split at h
  · cases h
  · split at h
    · cases h
    · rename_i hd c r4 heq
      split at h
      · rename_i hc
        injection h with h2
        injection h2 with h3 h4
        subst h3
        subst h4
        subst hc
        constructor
        · conv_lhs => rw [← List.takeWhile_append_dropWhile (p := isHWChar) (l := cs)]
          have e1 : cs.dropWhile isHWChar =
              (cs.dropWhile isHWChar).takeWhile Char.isDigit ++
              (cs.dropWhile isHWChar).dropWhile Char.isDigit :=
            (List.takeWhile_append_dropWhile _ _).symm
          have e2 : (cs.dropWhile isHWChar).dropWhile Char.isDigit =
              ((cs.dropWhile isHWChar).dropWhile Char.isDigit).takeWhile isHWChar ++
              ((cs.dropWhile isHWChar).dropWhile Char.isDigit).dropWhile isHWChar :=
            (List.takeWhile_append_dropWhile _ _).symm
          conv_lhs => rw [e1]
          conv_lhs => rw [e2]
          rw [heq]
          simp [List.append_assoc]
        · simp
      · cases h

theorem matchCommentLine_append (cs t r : List Char) (h : matchCommentLine cs = some (t, r)) :
    cs = t ++ r ∧ t ≠ [] := by
  simp only [matchCommentLine] at h
  split at h
  · cases h
  · rename_i c r1 heq
    split at h
    · rename_i hc
      injection h with h2
      injection h2 with h3 h4
      subst h3
      subst h4
      subst hc
      constructor
      · conv_lhs => rw [← List.takeWhile_append_dropWhile (p := fun c => !(c = '\n')) (l := cs)]
        rw [heq]
        simp [List.append_assoc]
      · simp
    · cases h

theorem matchCoordUnit_append (cs t r : List Char) (h : matchCoordUnit cs = some (t, r)) :
    cs = t ++ r ∧ t ≠ [] := by
  simp only [matchCoordUnit] at h
  set s0 := cs.takeWhile isSpaceChar with hs0
  set r0 := cs.dropWhile isSpaceChar with hr0
  set w := r0.takeWhile isWordChar with hw
  set r1 := r0.dropWhile isWordChar with hr1
  set s1 := r1.takeWhile isSpaceChar with hs1
  set r2 := r1.dropWhile isSpaceChar with hr2
  set a := r2.takeWhile isNumChar with ha
  set r3 := r2.dropWhile isNumChar with hr3
  set s2 := r3.takeWhile isSpaceChar with hs2
  set r4 := r3.dropWhile isSpaceChar with hr4
  set b := r4.takeWhile isNumChar with hb
  set r5 := r4.dropWhile isNumChar with hr5
  set s3 := r5.takeWhile isSpaceChar with hs3
  set r6 := r5.dropWhile isSpaceChar with hr6
  set c := r6.takeWhile isNumChar with hc
  set r7 := r6.dropWhile isNumChar with hr7
  set tws := r7.takeWhile isSpaceChar with htws
  set r8 := r7.dropWhile isSpaceChar with hr8
  have e0 : cs = s0 ++ r0 := (List.takeWhile_append_dropWhile _ _).symm
  have e1 : r0 = w ++ r1 := (List.takeWhile_append_dropWhile _ _).symm
  have e2 : r1 = s1 ++ r2 := (List.takeWhile_append_dropWhile _ _).symm
  have e3 : r2 = a ++ r3 := (List.takeWhile_append_dropWhile _ _).symm
  have e4 : r3 = s2 ++ r4 := (List.takeWhile_append_dropWhile _ _).symm
  have e5 : r4 = b ++ r5 := (List.takeWhile_append_dropWhile _ _).symm
  have e6 : r5 = s3 ++ r6 := (List.takeWhile_append_dropWhile _ _).symm
  have e7 : r6 = c ++ r7 := (List.takeWhile_append_dropWhile _ _).symm
  have e8 : r7 = tws ++ r8 := (List.takeWhile_append_dropWhile _ _).symm
  split at h
  · cases h
  · split at h
    · cases h
    · split at h
      · cases h
      · split at h
        · cases h
        · split at h
          · cases h
          · split at h
            · cases h
            · split at h
              · cases h
              · split at h
                · cases h
                · rename_i u v heq
                  injection h with h2
                  injection h2 with h3 h4
                  subst h3
                  subst h4
                  have e9 : tws = u ++ '\n' :: v := splitLastNL_append tws u v heq
                  constructor
                  · rw [e0, e1, e2, e3, e4, e5, e6, e7, e8, e9]
                    simp [List.append_assoc]
                  · simp

theorem unitsStar_append :
    ∀ (fuel : ℕ) (cs t r : List Char), unitsStar fuel cs = (t, r) → cs = t ++ r := by
  intro fuel
  induction fuel with
  | zero =>
    intro cs t r h
    injection h with h1 h2
    subst h1
    subst h2
    rfl
  | succ fuel ih =>
    intro cs t r h
    rw [show unitsStar (fuel + 1) cs =
      (match matchCoordUnit cs with
      | none => (([] : List Char), cs)
      | some (t, r) =>
        let p := unitsStar fuel r
        (t ++ p.1, p.2)) from rfl] at h
    cases hu : matchCoordUnit cs with
    | none =>
      rw [hu] at h
      injection h with h1 h2
      subst h1
      subst h2
      rfl
    | some p =>
      obtain ⟨t1, r1⟩ := p
      rw [hu] at h
      simp only at h
      injection h with h1 h2
      obtain ⟨hcr, _⟩ := matchCoordUnit_append cs t1 r1 hu
      have hrec : r1 = (unitsStar fuel r1).1 ++ (unitsStar fuel r1).2 :=
        ih r1 (unitsStar fuel r1).1 (unitsStar fuel r1).2 rfl
      rw [← h1, ← h2, hcr]
      conv_lhs => rw [hrec]
      simp [List.append_assoc]

theorem matchCoordLines_append (cs t r : List Char) (h : matchCoordLines cs = some (t, r)) :
    cs = t ++ r ∧ t ≠ [] := by
  unfold matchCoordLines at h
  cases hu : matchCoordUnit cs with
  | none => rw [hu] at h; cases h
  | some p =>
    obtain ⟨t1, r1⟩ := p
    rw [hu] at h
    simp only at h
    injection h with h2
    injection h2 with h3 h4
    obtain ⟨hcr, hne⟩ := matchCoordUnit_append cs t1 r1 hu
    have hrec : r1 = (unitsStar r1.length r1).1 ++ (unitsStar r1.length r1).2 :=
      unitsStar_append r1.length r1 (unitsStar r1.length r1).1 (unitsStar r1.length r1).2 rfl
    constructor
    · rw [← h3, ← h4, hcr]
      conv_lhs => rw [hrec]
      simp [List.append_assoc]
    · rw [← h3]
      intro hnil
      rcases List.append_eq_nil.mp hnil with ⟨h5, _⟩
      exact hne h5

theorem frameMatchAt_append (cs t r : List Char) (h : frameMatchAt cs = some (t, r)) :
    cs = t ++ r ∧ t ≠ [] := by
  unfold frameMatchAt at h
  cases h1 : matchNAtomsLine cs with
  | none => rw [h1] at h; cases h
  | some p1 =>
    obtain ⟨t1, r1⟩ := p1
    rw [h1] at h
    simp only at h
    cases h2 : matchCommentLine r1 with
    | none => rw [h2] at h; cases h
    | some p2 =>
      obtain ⟨t2, r2⟩ := p2
      rw [h2] at h
      simp only at h
      cases h3 : matchCoordLines r2 with
      | none => rw [h3] at h; cases h
      | some p3 =>
        obtain ⟨t3, r3⟩ := p3
        rw [h3] at h
        simp only at h
        injection h with hp
        injection hp with hp1 hp2
        obtain ⟨e1, n1⟩ := matchNAtomsLine_append cs t1 r1 h1
        obtain ⟨e2, _⟩ := matchCommentLine_append r1 t2 r2 h2
        obtain ⟨e3, _⟩ := matchCoordLines_append r2 t3 r3 h3
        constructor
        · rw [← hp1, ← hp2, e1, e2, e3]
          simp [List.append_assoc]
        · rw [← hp1]
          intro hnil
          rcases List.append_eq_nil.mp hnil with ⟨h5, _⟩
          rcases List.append_eq_nil.mp h5 with ⟨h6, _⟩
          exact n1 h6

theorem frameMatchAt_length (cs t r : List Char) (h : frameMatchAt cs = some (t, r)) :
    r.length < cs.length := by
  obtain ⟨hcr, hne⟩ := frameMatchAt_append cs t r h
  rw [hcr, List.length_append]
  have : 0 < t.length := List.length_pos.mpr hne
  omega

/-! ## Lemmas: fuel stability and unfolding of the document scan -/

theorem finditerAux_fuel :
    ∀ (f g : ℕ) (cs : List Char), cs.length < f → cs.length < g →
      finditerAux f cs = finditerAux g cs := by
  intro f
  induction f with
  | zero => intro g cs hf _; omega
  | succ f ih =>
    intro g cs hf hg
    cases g with
    | zero => omega
    | succ g =>
      cases hm : frameMatchAt cs with
      | some p =>
        obtain ⟨t, r⟩ := p
        have hlen := frameMatchAt_length cs t r hm
        simp only [finditerAux, hm]
        rw [ih g r (by omega) (by omega)]
      | none =>
        cases cs with
        | nil => simp only [finditerAux, hm]
        | cons c cs' =>
          simp only [finditerAux, hm]
          have hf' : cs'.length < f := by
            rw [List.length_cons] at hf
            omega
          have hg' : cs'.length < g := by
            rw [List.length_cons] at hg
            omega
          exact ih g cs' hf' hg'

theorem finditerFrames_match (cs t r : List Char) (h : frameMatchAt cs = some (t, r)) :
    finditerFrames cs = t :: finditerFrames r := by
  have hlen := frameMatchAt_length cs t r h
  have haux : finditerAux (cs.length + 1) cs = t :: finditerAux cs.length r := by
    simp only [finditerAux, h]
  show finditerAux (cs.length + 1) cs = t :: finditerFrames r
  rw [haux]
  show _ = t :: finditerAux (r.length + 1) r
  rw [finditerAux_fuel cs.length (r.length + 1) r (by omega) (by omega)]

theorem finditerFrames_skip (c : Char) (cs : List Char)
    (h : frameMatchAt (c :: cs) = none) :
    finditerFrames (c :: cs) = finditerFrames cs := by
  have haux : finditerAux ((c :: cs).length + 1) (c :: cs) =
      finditerAux (c :: cs).length cs := by
    simp only [finditerAux, h]
  show finditerAux ((c :: cs).length + 1) (c :: cs) = finditerFrames cs
  rw [haux]
  show _ = finditerAux (cs.length + 1) cs
  rw [finditerAux_fuel (c :: cs).length (cs.length + 1) cs (by simp) (by omega)]

theorem finditerFrames_nil : finditerFrames [] = [] := rfl

/-! ## Lemmas: the frame pattern on formatted documents -/

theorem takeWhile_nil_of_head {p : Char → Bool} (b : List Char)
    (hb : ∀ c, b.head? = some c → p c = false) : b.takeWhile p = [] := by
  cases b with
  | nil => rfl
  | cons x xs => simp [List.takeWhile_cons, hb x rfl]

theorem dropWhile_self_of_head {p : Char → Bool} (b : List Char)
    (hb : ∀ c, b.head? = some c → p c = false) : b.dropWhile p = b := by
  cases b with
  | nil => rfl
  | cons x xs => simp [List.dropWhile_cons, hb x rfl]

theorem head_not_space_specie (s : Site) (h : isWordToken s.specie = true) (X : List Char) :
    ∀ c, (s.specie ++ X).head? = some c → isSpaceChar c = false := by
  have hne : s.specie ≠ [] := by
    intro hnil
    rw [isWordToken, hnil] at h
    exact absurd h (by decide)
  obtain ⟨d, ds, hdds⟩ := List.exists_cons_of_ne_nil hne
  intro c hc
  rw [hdds, List.cons_append, List.head?_cons, Option.some_inj] at hc
  rw [← hc]
  have hword : isWordChar d = true :=
    (List.all_eq_true.mp ((Bool.and_eq_true _ _).mp h).2) d (by rw [hdds]; simp)
  exact word_not_space d hword

theorem head_not_word_nl (rest : List Char) :
    ∀ c, ('\n' :: rest).head? = some c → isWordChar c = false := by
  intro c hc
  rw [List.head?_cons, Option.some_inj] at hc
  subst hc
  decide

theorem head_not_num_nl (rest : List Char) :
    ∀ c, ('\n' :: rest).head? = some c → isNumChar c = false := by
  intro c hc
  rw [List.head?_cons, Option.some_inj] at hc
  subst hc
  decide

theorem matchCoordUnit_lineOf (p : ℕ) (s : Site) (rest : List Char)
    (h : isWordToken s.specie = true) (hrest : headNotWS rest) :
    matchCoordUnit (lineOf p s ++ '\n' :: rest) = some (lineOf p s ++ ['\n'], rest) := by
  have hne : s.specie ≠ [] := by
    intro hnil
    rw [isWordToken, hnil] at h
    exact absurd h (by decide)
  have hword : ∀ c ∈ s.specie, isWordChar c = true := by
    intro c hc
    exact (List.all_eq_true.mp ((Bool.and_eq_true _ _).mp h).2) c hc
  have hfx := fmtFloat_all_num s.x p
  have hfy := fmtFloat_all_num s.y p
  have hfz := fmtFloat_all_num s.z p
  have hsp : ∀ c ∈ [' '], isSpaceChar c = true := by
    intro c hc; rw [List.mem_singleton] at hc; subst hc; decide
  have hshape : lineOf p s ++ '\n' :: rest =
      s.specie ++ ' ' :: (fmtFloat s.x p ++ ' ' ::
        (fmtFloat s.y p ++ ' ' :: (fmtFloat s.z p ++ '\n' :: rest))) := by
    unfold lineOf
    simp [List.append_assoc]
  rw [hshape]
  simp only [matchCoordUnit]
  rw [takeWhile_nil_of_head _ (head_not_space_specie s h _),
    dropWhile_self_of_head _ (head_not_space_specie s h _)]
  rw [takeWhile_run s.specie _ hword (head_not_word_space _),
    dropWhile_run s.specie _ hword (head_not_word_space _)]
  rw [isEmpty_false_of_ne_nil hne]
  simp only [Bool.false_eq_true, if_false]
  rw [show (' ' :: (fmtFloat s.x p ++ ' ' ::
      (fmtFloat s.y p ++ ' ' :: (fmtFloat s.z p ++ '\n' :: rest)))) =
    [' '] ++ (fmtFloat s.x p ++ ' ' ::
      (fmtFloat s.y p ++ ' ' :: (fmtFloat s.z p ++ '\n' :: rest))) from rfl]
  rw [takeWhile_run [' '] _ hsp (head_not_space_fmt s.x p _),
    dropWhile_run [' '] _ hsp (head_not_space_fmt s.x p _)]
  simp only [List.isEmpty_cons, Bool.false_eq_true, if_false]
  rw [takeWhile_run (fmtFloat s.x p) _ hfx (head_not_num_space _),
    dropWhile_run (fmtFloat s.x p) _ hfx (head_not_num_space _)]
  rw [isEmpty_false_of_ne_nil (fmtFloat_ne_nil s.x p)]
  simp only [Bool.false_eq_true, if_false]
  rw [show (' ' :: (fmtFloat s.y p ++ ' ' :: (fmtFloat s.z p ++ '\n' :: rest))) =
    [' '] ++ (fmtFloat s.y p ++ ' ' :: (fmtFloat s.z p ++ '\n' :: rest)) from rfl]
  rw [takeWhile_run [' '] _ hsp (head_not_space_fmt s.y p _),
    dropWhile_run [' '] _ hsp (head_not_space_fmt s.y p _)]
  simp only [List.isEmpty_cons, Bool.false_eq_true, if_false]
  rw [takeWhile_run (fmtFloat s.y p) _ hfy (head_not_num_space _),
    dropWhile_run (fmtFloat s.y p) _ hfy (head_not_num_space _)]
  rw [isEmpty_false_of_ne_nil (fmtFloat_ne_nil s.y p)]
  simp only [Bool.false_eq_true, if_false]
  rw [show (' ' :: (fmtFloat s.z p ++ '\n' :: rest)) =
    [' '] ++ (fmtFloat s.z p ++ '\n' :: rest) from rfl]
  rw [takeWhile_run [' '] _ hsp (head_not_space_fmt s.z p _),
    dropWhile_run [' '] _ hsp (head_not_space_fmt s.z p _)]
  simp only [List.isEmpty_cons, Bool.false_eq_true, if_false]
  rw [takeWhile_run (fmtFloat s.z p) _ hfz (head_not_num_nl _),
    dropWhile_run (fmtFloat s.z p) _ hfz (head_not_num_nl _)]
  rw [isEmpty_false_of_ne_nil (fmtFloat_ne_nil s.z p)]
  simp only [Bool.false_eq_true, if_false]
  rw [show ('\n' :: rest) = ['\n'] ++ rest from rfl]
  rw [takeWhile_run ['\n'] _ (by intro c hc; rw [List.mem_singleton] at hc; subst hc; decide)
      hrest,
    dropWhile_run ['\n'] _ (by intro c hc; rw [List.mem_singleton] at hc; subst hc; decide)
      hrest]
  rw [show splitLastNL ['\n'] = some ([], []) from rfl]
  simp only
  unfold lineOf
  simp [List.append_assoc]

theorem head_not_space_natRender (n : ℕ) (X : List Char) :
    ∀ c, (natRender n ++ X).head? = some c → isSpaceChar c = false := by
  obtain ⟨d, ds, hdds⟩ := List.exists_cons_of_ne_nil (natRender_ne_nil n)
  intro c hc
  rw [hdds, List.cons_append, List.head?_cons, Option.some_inj] at hc
  rw [← hc]
  exact digit_not_space d (natRender_all_digit n d (by rw [hdds]; simp))

theorem wfFormulaLine_parts (f : List Char) (h : wfFormulaLine f = true) :
    nlFree f = true ∧ ∃ fc ft, f = fc :: ft ∧ isSpaceChar fc = false ∧ isNumChar fc = false := by
  unfold wfFormulaLine at h
  have h1 := (Bool.and_eq_true _ _).mp h
  refine ⟨h1.1, ?_⟩
  cases f with
  | nil => exact absurd h1.2 (by decide)
  | cons fc ft =>
    have h2 := (Bool.and_eq_true _ _).mp h1.2
    exact ⟨fc, ft, rfl, by simpa using h2.1, by simpa using h2.2⟩

theorem matchCoordUnit_header_none (n : ℕ) (f more : List Char)
    (hwf : wfFormulaLine f = true) :
    matchCoordUnit (natRender n ++ '\n' :: (f ++ more)) = none := by
  obtain ⟨_, fc, ft, hf, hfc1, hfc2⟩ := wfFormulaLine_parts f hwf
  have hdig := natRender_all_digit n
  simp only [matchCoordUnit]
  rw [takeWhile_nil_of_head _ (head_not_space_natRender n _),
    dropWhile_self_of_head _ (head_not_space_natRender n _)]
  rw [takeWhile_run (natRender n) _ (fun c hc => digit_isWordChar c (hdig c hc))
      (head_not_word_nl _),
    dropWhile_run (natRender n) _ (fun c hc => digit_isWordChar c (hdig c hc))
      (head_not_word_nl _)]
  rw [isEmpty_false_of_ne_nil (natRender_ne_nil n)]
  simp only [Bool.false_eq_true, if_false]
  have hfhead : ∀ c, (f ++ more).head? = some c → isSpaceChar c = false := by
    intro c hc
    rw [hf, List.cons_append, List.head?_cons, Option.some_inj] at hc
    rw [← hc]
    exact hfc1
  rw [show ('\n' :: (f ++ more)) = ['\n'] ++ (f ++ more) from rfl]
  rw [takeWhile_run ['\n'] _ (by intro c hc; rw [List.mem_singleton] at hc; subst hc; decide)
      hfhead,
    dropWhile_run ['\n'] _ (by intro c hc; rw [List.mem_singleton] at hc; subst hc; decide)
      hfhead]
  simp only [List.isEmpty_cons, Bool.false_eq_true, if_false]
  rw [takeWhile_nil_of_head _ (by
    intro c hc
    rw [hf, List.cons_append, List.head?_cons, Option.some_inj] at hc
    rw [← hc]
    exact hfc2)]
  rfl

theorem headNotWS_atomBlock (p : ℕ) (mol : List Site) (rest : List Char)
    (hm : wfMol mol = true) (hrest : headNotWS rest) :
    headNotWS (atomLinesBlock p mol ++ rest) := by
  cases mol with
  | nil =>
    rw [show atomLinesBlock p [] = [] from rfl, List.nil_append]
    exact hrest
  | cons s ms =>
    have hs : isWordToken s.specie = true := (List.all_eq_true.mp hm) s (by simp)
    intro c hc
    have hshape : atomLinesBlock p (s :: ms) ++ rest =
        s.specie ++ (' ' :: (fmtFloat s.x p ++ ' ' :: (fmtFloat s.y p ++ ' ' :: fmtFloat s.z p)) ++
          ('\n' :: (atomLinesBlock p ms ++ rest))) := by
      show ((lineOf p s ++ ['\n']) ++ atomLinesBlock p ms) ++ rest = _
      unfold lineOf
      simp [List.append_assoc]
    rw [hshape] at hc
    exact head_not_space_specie s hs _ c hc

theorem unitsStar_atomBlock (p : ℕ) :
    ∀ (mol : List Site) (rest : List Char) (fuel : ℕ),
      (atomLinesBlock p mol ++ rest).length ≤ fuel →
      wfMol mol = true → matchCoordUnit rest = none → headNotWS rest →
      unitsStar fuel (atomLinesBlock p mol ++ rest) = (atomLinesBlock p mol, rest) := by
  intro mol
  induction mol with
  | nil =>
    intro rest fuel _ _ hrest _
    rw [show atomLinesBlock p [] = [] from rfl, List.nil_append]
    cases fuel with
    | zero => rfl
    | succ f => simp only [unitsStar, hrest]
  | cons s ms ih =>
    intro rest fuel hfuel hm hrest hhead
    have hs : isWordToken s.specie = true := (List.all_eq_true.mp hm) s (by simp)
    have hms : wfMol ms = true := by
      rw [wfMol, List.all_eq_true]
      intro t ht
      exact (List.all_eq_true.mp hm) t (by simp [ht])
    have hblock : atomLinesBlock p (s :: ms) ++ rest =
        lineOf p s ++ '\n' :: (atomLinesBlock p ms ++ rest) := by
      show ((lineOf p s ++ ['\n']) ++ atomLinesBlock p ms) ++ rest = _
      simp [List.append_assoc]
    have hlen : (atomLinesBlock p (s :: ms) ++ rest).length =
        (lineOf p s).length + 1 + (atomLinesBlock p ms ++ rest).length := by
      rw [hblock]
      simp
      omega
    cases fuel with
    | zero =>
      exfalso
      have h1 : 0 < (lineOf p s).length := List.length_pos.mpr (lineOf_ne_nil p s)
      omega
    | succ f =>
      rw [hblock]
      simp only [unitsStar,
        matchCoordUnit_lineOf p s _ hs (headNotWS_atomBlock p ms rest hms hhead)]
      rw [ih rest f (by omega) hms hrest hhead]
      rw [show atomLinesBlock p (s :: ms) =
        (lineOf p s ++ ['\n']) ++ atomLinesBlock p ms from rfl]

theorem matchNAtomsLine_header (n : ℕ) (X : List Char) :
    matchNAtomsLine (natRender n ++ '\n' :: X) = some (natRender n ++ ['\n'], X) := by
  have hhw : ∀ c, (natRender n ++ '\n' :: X).head? = some c → isHWChar c = false := by
    obtain ⟨d, ds, hdds⟩ := List.exists_cons_of_ne_nil (natRender_ne_nil n)
    intro c hc
    rw [hdds, List.cons_append, List.head?_cons, Option.some_inj] at hc
    rw [← hc]
    exact digit_not_hw d (natRender_all_digit n d (by rw [hdds]; simp))
  have hnl_dig : ∀ c, ('\n' :: X).head? = some c → Char.isDigit c = false := by
    intro c hc
    rw [List.head?_cons, Option.some_inj] at hc
    subst hc
    decide
  have hnl_hw : ∀ c, ('\n' :: X).head? = some c → isHWChar c = false := by
    intro c hc
    rw [List.head?_cons, Option.some_inj] at hc
    subst hc
    decide
  simp only [matchNAtomsLine]
  rw [takeWhile_nil_of_head _ hhw, dropWhile_self_of_head _ hhw]
  rw [takeWhile_run (natRender n) _ (natRender_all_digit n) hnl_dig,
    dropWhile_run (natRender n) _ (natRender_all_digit n) hnl_dig]
  rw [isEmpty_false_of_ne_nil (natRender_ne_nil n)]
  simp only [Bool.false_eq_true, if_false]
  rw [takeWhile_nil_of_head _ hnl_hw, dropWhile_self_of_head _ hnl_hw]
  simp

theorem matchCommentLine_formula (f X : List Char) (hf : nlFree f = true) :
    matchCommentLine (f ++ '\n' :: X) = some (f ++ ['\n'], X) := by
  have hall : ∀ c ∈ f, (!(decide (c = '\n'))) = true := by
    intro c hc
    exact (List.all_eq_true.mp hf) c hc
  have hhead : ∀ c, ('\n' :: X).head? = some c → (!(decide (c = '\n'))) = false := by
    intro c hc
    rw [List.head?_cons, Option.some_inj] at hc
    subst hc
    decide
  simp only [matchCommentLine]
  rw [takeWhile_run f _ hall hhead, dropWhile_run f _ hall hhead]
  simp

theorem joinNL_append_nl :
    ∀ (parts : List (List Char)), parts ≠ [] →
      joinNL parts ++ ['\n'] = (parts.map (fun l => l ++ ['\n'])).flatten := by
  intro parts
  induction parts with
  | nil => intro h; exact absurd rfl h
  | cons l ls ih =>
    intro _
    cases ls with
    | nil => simp [joinNL]
    | cons m ms =>
      rw [joinNL_cons l (m :: ms) (by simp)]
      rw [List.map_cons, List.flatten_cons, ← ih (by simp)]
      simp [List.append_assoc]

theorem frameBlock_shape (p : ℕ) (mol : List Site) (formula : List Char) :
    frameBlock p (mol, formula) =
      natRender mol.length ++ '\n' :: (formula ++ '\n' :: atomLinesBlock p mol) := by
  unfold frameBlock xyzStrChars
  rw [joinNL_append_nl _ (by simp)]
  simp only [List.map_cons, List.flatten_cons]
  rw [show (mol.map (lineOf p)).map (fun l => l ++ ['\n']) =
    mol.map (fun s => lineOf p s ++ ['\n']) from by
      rw [List.map_map]
      exact List.map_congr_left (fun s _ => rfl)]
  rw [show atomLinesBlock p mol = (mol.map (fun s => lineOf p s ++ ['\n'])).flatten from rfl]
  simp [List.append_assoc]

theorem matchCoordLines_block (p : ℕ) (mol : List Site) (rest : List Char)
    (hmol : mol ≠ []) (hm : wfMol mol = true)
    (hrest : matchCoordUnit rest = none) (hhead : headNotWS rest) :
    matchCoordLines (atomLinesBlock p mol ++ rest) = some (atomLinesBlock p mol, rest) := by
  obtain ⟨s, ms, hsms⟩ := List.exists_cons_of_ne_nil hmol
  subst hsms
  have hs : isWordToken s.specie = true := (List.all_eq_true.mp hm) s (by simp)
  have hms : wfMol ms = true := by
    rw [wfMol, List.all_eq_true]
    intro t ht
    exact (List.all_eq_true.mp hm) t (by simp [ht])
  have hblock : atomLinesBlock p (s :: ms) ++ rest =
      lineOf p s ++ '\n' :: (atomLinesBlock p ms ++ rest) := by
    show ((lineOf p s ++ ['\n']) ++ atomLinesBlock p ms) ++ rest = _
    simp [List.append_assoc]
  rw [hblock]
  unfold matchCoordLines
  rw [matchCoordUnit_lineOf p s _ hs (headNotWS_atomBlock p ms rest hms hhead)]
  simp only
  rw [unitsStar_atomBlock p ms rest (atomLinesBlock p ms ++ rest).length le_rfl hms hrest hhead]
  rw [show atomLinesBlock p (s :: ms) =
    (lineOf p s ++ ['\n']) ++ atomLinesBlock p ms from rfl]

theorem frameMatchAt_block (p : ℕ) (mol : List Site) (formula : List Char) (rest : List Char)
    (hmol : mol ≠ []) (hm : wfMol mol = true) (hf : wfFormulaLine formula = true)
    (hrest : matchCoordUnit rest = none) (hhead : headNotWS rest) :
    frameMatchAt (frameBlock p (mol, formula) ++ rest) =
      some (frameBlock p (mol, formula), rest) := by
  have hshape : frameBlock p (mol, formula) ++ rest =
      natRender mol.length ++ '\n' :: (formula ++ '\n' :: (atomLinesBlock p mol ++ rest)) := by
    rw [frameBlock_shape]
    simp [List.append_assoc]
  rw [hshape]
  have h1 := matchNAtomsLine_header mol.length (formula ++ '\n' :: (atomLinesBlock p mol ++ rest))
  simp only [frameMatchAt, h1]
  have h2 := matchCommentLine_formula formula (atomLinesBlock p mol ++ rest)
    (wfFormulaLine_parts formula hf).1
  simp only [h2]
  have h3 := matchCoordLines_block p mol rest hmol hm hrest hhead
  simp only [h3]
  rw [frameBlock_shape]
  simp [List.append_assoc]

/-! ## Claim C3: multi-frame round trip -/

theorem wfFrame_parts (f : List Site × List Char) (h : wfFrame f = true) :
    f.1 ≠ [] ∧ wfMol f.1 = true ∧ wfFormulaLine f.2 = true := by
  unfold wfFrame at h
  have h1 := (Bool.and_eq_true _ _).mp h
  have h2 := (Bool.and_eq_true _ _).mp h1.1
  refine ⟨?_, h2.2, h1.2⟩
  intro hnil
  rw [hnil] at h2
  exact absurd h2.1 (by decide)

theorem blocks_tail_props (p : ℕ) (fs : List (List Site × List Char))
    (hwf : ∀ f ∈ fs, wfFrame f = true) :
    matchCoordUnit ((fs.map (frameBlock p)).flatten) = none ∧
    headNotWS ((fs.map (frameBlock p)).flatten) := by
  cases fs with
  | nil =>
    constructor
    · rfl
    · intro c hc; cases hc
  | cons f fs' =>
    obtain ⟨hmol, hm, hform⟩ := wfFrame_parts f (hwf f (by simp))
    rw [List.map_cons, List.flatten_cons]
    have hshape : frameBlock p f ++ (fs'.map (frameBlock p)).flatten =
        natRender f.1.length ++ '\n' ::
          (f.2 ++ ('\n' :: atomLinesBlock p f.1 ++ (fs'.map (frameBlock p)).flatten)) := by
      rw [show frameBlock p f = frameBlock p (f.1, f.2) from rfl, frameBlock_shape]
      simp [List.append_assoc]
    constructor
    · rw [hshape]
      exact matchCoordUnit_header_none f.1.length f.2 _ hform
    · rw [hshape]
      intro c hc
      exact head_not_space_natRender f.1.length _ c hc

theorem finditer_blocks (p : ℕ) :
    ∀ (fs : List (List Site × List Char)), (∀ f ∈ fs, wfFrame f = true) →
      finditerFrames ((fs.map (frameBlock p)).flatten) = fs.map (frameBlock p) := by
  intro fs
  induction fs with
  | nil => intro _; rfl
  | cons f fs' ih =>
    intro hwf
    obtain ⟨hmol, hm, hform⟩ := wfFrame_parts f (hwf f (by simp))
    have hwf' : ∀ g ∈ fs', wfFrame g = true := fun g hg => hwf g (by simp [hg])
    obtain ⟨hu, hh⟩ := blocks_tail_props p fs' hwf'
    rw [List.map_cons, List.flatten_cons]
    rw [finditerFrames_match _ (frameBlock p f) ((fs'.map (frameBlock p)).flatten)
      (by
        rw [show frameBlock p f = frameBlock p (f.1, f.2) from rfl]
        exact frameMatchAt_block p f.1 f.2 _ hmol hm hform hu hh)]
    rw [ih hwf']

theorem xyzFromChars_frameBlock (p : ℕ) (mol : List Site) (formula : List Char)
    (hm : wfMol mol = true) (hf : nlFree formula = true) :
    xyzFromChars (frameBlock p (mol, formula)) = .ok ⟨mol.map (parsedOf p), 6⟩ := by
  unfold xyzFromChars frameBlock
  rw [splitNL_xyzStrChars_nl p mol formula (wfMol_spacefree mol hm) hf]
  exact xyzFromLines_format p mol formula [[]] hm

theorem molsOfTexts_blocks (p : ℕ) :
    ∀ (fs : List (List Site × List Char)), (∀ f ∈ fs, wfFrame f = true) →
      molsOfTexts (fs.map (frameBlock p)) =
        .ok (fs.map (fun f => f.1.map (parsedOf p))) := by
  intro fs
  induction fs with
  | nil => intro _; rfl
  | cons f fs' ih =>
    intro hwf
    obtain ⟨_, hm, hform⟩ := wfFrame_parts f (hwf f (by simp))
    have hwf' : ∀ g ∈ fs', wfFrame g = true := fun g hg => hwf g (by simp [hg])
    rw [List.map_cons]
    unfold molsOfTexts
    rw [show frameBlock p f = frameBlock p (f.1, f.2) from rfl]
    rw [xyzFromChars_frameBlock p f.1 f.2 hm (wfFormulaLine_parts f.2 hform).1]
    rw [ih hwf']
    rfl

theorem xyzStrChars_ne_nil (p : ℕ) (mol : List Site) (formula : List Char) :
    xyzStrChars mol formula p ≠ [] := by
  unfold xyzStrChars
  rw [joinNL_cons _ _ (by simp)]
  intro h
  rcases List.append_eq_nil.mp h with ⟨_, h2⟩
  cases h2

theorem xyzStrChars_getLast_digit (p : ℕ) (mol : List Site) (formula : List Char)
    (hmol : mol ≠ []) :
    ∃ c, (xyzStrChars mol formula p).getLast? = some c ∧ c.isDigit = true := by
  obtain ⟨front, last, hdecomp⟩ := (List.eq_nil_or_concat mol).resolve_left hmol
  rw [List.concat_eq_append] at hdecomp
  subst hdecomp
  obtain ⟨c, hc, hd⟩ := lineOf_getLast_digit p last
  refine ⟨c, ?_, hd⟩
  unfold xyzStrChars
  rw [List.map_append, List.map_cons, List.map_nil]
  rw [show natRender (front ++ [last]).length :: formula ::
      (front.map (lineOf p) ++ [lineOf p last]) =
    (natRender (front ++ [last]).length :: formula :: front.map (lineOf p)) ++
      [lineOf p last] from by simp]
  rw [getLast?_joinNL _ _ (lineOf_ne_nil p last), hc]

/-- C3, amended: for every nonempty sequence of frames, each with at least
one atom, word-token labels, and a well-formed one-line formula (nonempty,
no newline, first character neither whitespace nor in the numeric class —
as collaborator formulas are), formatting via `MXYZ` (frame texts joined by
single newlines, each frame serialized per the spec's single-frame format
at the shared precision) and re-parsing via `MXYZ.from_string` yields
exactly one output frame per input frame in the same order, each
round-tripping with its source frame: same atom count, same labels in
order, coordinates within `10^(-p)`.  (As stated over arbitrary frames the
claim is false: a frame with zero atoms produces a count line that the
frame pattern cannot match, so that frame is dropped, see the
counterexample.) -/
theorem c3_multi_frame_roundtrip (fs : List (List Site × List Char)) (p : ℕ)
    (hne : fs ≠ []) (hwf : ∀ f ∈ fs, wfFrame f = true) :
    ∃ gs : List (List Site),
      MXYZ.from_string (MXYZ.str fs p) = .ok (MXYZ.mk gs 6) ∧
      gs.length = fs.length ∧
      List.Forall₂ (fun (g f : List Site) => g.length = f.length ∧
        g.map Site.specie = f.map Site.specie ∧
        List.Forall₂ (fun a b : Site => |a.x - b.x| ≤ 1 / (10 : ℚ) ^ p ∧
          |a.y - b.y| ≤ 1 / (10 : ℚ) ^ p ∧ |a.z - b.z| ≤ 1 / (10 : ℚ) ^ p) g f)
        gs (fs.map Prod.fst) := by
  refine ⟨fs.map (fun f => f.1.map (parsedOf p)), ?_, by simp, ?_⟩
  · obtain ⟨front, lastf, hdecomp⟩ := (List.eq_nil_or_concat fs).resolve_left hne
    rw [List.concat_eq_append] at hdecomp
    obtain ⟨hlmol, _, _⟩ := wfFrame_parts lastf (hwf lastf (by rw [hdecomp]; simp))
    have hdoc_last : ∃ c, (mxyzStrChars fs p).getLast? = some c ∧ c.isDigit = true := by
      obtain ⟨c, hc, hd⟩ := xyzStrChars_getLast_digit p lastf.1 lastf.2 hlmol
      refine ⟨c, ?_, hd⟩
      unfold mxyzStrChars
      rw [hdecomp, List.map_append, List.map_cons, List.map_nil]
      rw [getLast?_joinNL _ _ (xyzStrChars_ne_nil p lastf.1 lastf.2)]
      exact hc
    obtain ⟨c, hc, hd⟩ := hdoc_last
    show (match (mxyzStrChars fs p).getLast? with
      | none => Except.error PyExc.indexError
      | some c => if c = '\n' then mxyzCore (mxyzStrChars fs p)
        else mxyzCore (mxyzStrChars fs p ++ ['\n'])) = _
    rw [hc]
    simp only [if_neg (show ¬(c = '\n') from digit_ne_nl c hd)]
    have hdocnl : mxyzStrChars fs p ++ ['\n'] = (fs.map (frameBlock p)).flatten := by
      unfold mxyzStrChars
      rw [joinNL_append_nl _ (by
        intro hnil
        rw [List.map_eq_nil_iff] at hnil
        exact hne hnil)]
      rw [List.map_map]
      rfl
    rw [hdocnl]
    unfold mxyzCore
    rw [finditer_blocks p fs hwf, molsOfTexts_blocks p fs hwf]
    rfl
  · rw [List.forall₂_map_left_iff, List.forall₂_map_right_iff]
    rw [List.forall₂_same]
    intro f _
    refine ⟨by simp, ?_, ?_⟩
    · rw [List.map_map]
      exact List.map_congr_left (fun s _ => rfl)
    · rw [List.forall₂_map_left_iff, List.forall₂_same]
      intro s _
      exact ⟨rndq_close s.x p, rndq_close s.y p, rndq_close s.z p⟩

/-- C3, counterexample: with a zero-atom middle frame, the formatted
document re-parses to 2 frames instead of 3 — the empty frame's two-line
text cannot be matched by the frame pattern (which requires at least one
coordinate line) and is dropped. -/
theorem c3_counterexample :
    (MXYZ.from_string (MXYZ.str
      [([⟨['H'], 0, 0, 0⟩], "H1".toList), ([], []),
        ([⟨['H'], 0, 0, 0⟩], "H1".toList)] 6)).map (fun m => m.mols.length) = .ok 2 ∧
    ([([⟨['H'], 0, 0, 0⟩], "H1".toList), (([] : List Site), ([] : List Char)),
        ([⟨['H'], 0, 0, 0⟩], "H1".toList)]).length = 3 := by
  constructor
  · decide
  · rfl

/-- C3, witness: the round-trip theorem applied to three concrete one-atom
frames at precision 1. -/
theorem c3_multi_frame_roundtrip_witness :
    ∃ gs : List (List Site),
      MXYZ.from_string (MXYZ.str c3wFrames 1) = .ok (MXYZ.mk gs 6) ∧
      gs.length = c3wFrames.length ∧
      List.Forall₂ (fun (g f : List Site) => g.length = f.length ∧
        g.map Site.specie = f.map Site.specie ∧
        List.Forall₂ (fun a b : Site => |a.x - b.x| ≤ 1 / (10 : ℚ) ^ 1 ∧
          |a.y - b.y| ≤ 1 / (10 : ℚ) ^ 1 ∧ |a.z - b.z| ≤ 1 / (10 : ℚ) ^ 1) g f)
        gs (c3wFrames.map Prod.fst) :=
  c3_multi_frame_roundtrip c3wFrames 1 (by decide) (by decide)
